import Mathlib

/-!
Shallow embedding of the dke-server RAG query pipeline.

Strings are modelled as `List Char` (`Str`), JavaScript numbers as `ℚ`
(exact rationals) or `Int`/`Nat` where the source only performs integer
arithmetic, and fallible operations return `Except Str α` carrying the
thrown error message.  JavaScript `Map`s are modelled as insertion-ordered
association lists.  External providers (HuggingFace feature extraction,
Mistral chat, the ChromaDB collection) are parameters of the functions
that call them; everything else is translated from the source files.
-/

namespace DKE

abbrev Str := List Char

/-- Converts a Lean string literal to the `List Char` string model. -/
def str (s : String) : Str := s.toList

/-- Whitespace test for the JavaScript regex class `\s`, restricted to the
ASCII whitespace characters that can occur in this pipeline. -/
def isWs (c : Char) : Bool :=
  (c == ' ') || (c == '\t') || (c == '\n') || (c == '\r')

/-- Drops leading whitespace (the left half of JavaScript `String.trim`). -/
def trimL (s : Str) : Str := s.dropWhile isWs

/-- Drops trailing whitespace (the right half of JavaScript `String.trim`). -/
def trimR (s : Str) : Str := (s.reverse.dropWhile isWs).reverse

/-- JavaScript `String.prototype.trim`. -/
def trim (s : Str) : Str := trimR (trimL s)

/-- JavaScript `text.replace(/\s+/g, ' ')`: every maximal run of whitespace
characters becomes a single space. -/
def collapseWs : Str → Str
  | [] => []
  | [c] => if isWs c then [' '] else [c]
  | a :: b :: rest =>
    if isWs a && isWs b then collapseWs (b :: rest)
    else (if isWs a then ' ' else a) :: collapseWs (b :: rest)

/-- Membership test for the JavaScript regex class `\w` (ASCII letters,
digits and underscore). -/
def isWordChar (c : Char) : Bool := c.isAlphanum || c == '_'

/-- Characters kept by `EmbeddingService.cleanText`'s allow-list
`[^\w\s.,!?-]` (everything outside the list is deleted). -/
def embedAllowedChar (c : Char) : Bool :=
  isWordChar c || isWs c || c == '.' || c == ',' || c == '!' || c == '?' || c == '-'

/-- Source: `EmbeddingService.cleanText` — collapse whitespace, strip
characters outside the allow-list, trim. -/
def embedCleanText (t : Str) : Str :=
  trim ((collapseWs t).filter embedAllowedChar)

/-- Sentence-ending punctuation, the regex class `[.!?]`. -/
def isSentencePunct (c : Char) : Bool := (c == '.') || (c == '!') || (c == '?')

/-- Worker for `text.split(/[.!?]+/)`: `acc` is the (reversed) current piece
and `inRun` records whether the previous character was part of a separator
run, so that a run of punctuation produces a single break. -/
def splitRunsGo (acc : Str) (inRun : Bool) : Str → List Str
  | [] => [acc.reverse]
  | c :: rest =>
    if isSentencePunct c then
      if inRun then splitRunsGo [] true rest
      else acc.reverse :: splitRunsGo [] true rest
    else splitRunsGo (c :: acc) false rest

/-- JavaScript `text.split(/[.!?]+/)`. -/
def splitSentenceRuns (t : Str) : List Str := splitRunsGo [] false t

/-- JavaScript `text.split(sep)` for a single-character separator (no run
collapsing: adjacent separators produce empty pieces). -/
def splitChar (sep : Char) : Str → List Str
  | [] => [[]]
  | c :: rest =>
    if c == sep then [] :: splitChar sep rest
    else
      match splitChar sep rest with
      | [] => [[c]]
      | p :: ps => (c :: p) :: ps

/-- Sentence-accumulation loop of `EmbeddingService.truncateText`: take the
next sentence while `(truncated + sentence).length <= maxLength`, appending
`'.'` after each accepted sentence, and stop at the first sentence that does
not fit (`break` in the source). -/
def sentLoop (maxLength : Nat) : List Str → Str → Str
  | [], acc => acc
  | s :: rest, acc =>
    if (acc ++ s).length ≤ maxLength then sentLoop maxLength rest (acc ++ s ++ ['.'])
    else acc

/-- Word-accumulation fallback loop of `EmbeddingService.truncateText`. -/
def wordLoop (maxLength : Nat) : List Str → Str → Str
  | [], acc => acc
  | w :: rest, acc =>
    if (acc ++ w ++ [' ']).length ≤ maxLength then wordLoop maxLength rest (acc ++ w ++ [' '])
    else acc

/-- Source: `EmbeddingService.truncateText` — if the text fits, return it;
otherwise accumulate whole sentences, then (if no sentence fitted) whole
words, and finally fall back to a hard cut at `maxLength`. -/
def truncateText (maxLength : Nat) (text : Str) : Str :=
  if text.length ≤ maxLength then text
  else
    let t1 := sentLoop maxLength (splitSentenceRuns text) []
    let t2 := if t1.length = 0 then trim (wordLoop maxLength (splitChar ' ' text) []) else t1
    if t2 = [] then text.take maxLength else t2

/-- The configured HuggingFace model input limit `aiConfig.huggingface.maxLength`. -/
def hfMaxLength : Nat := 512

/-- Wraps an integer into the 32-bit two's-complement range, the effect of
JavaScript's `| 0`-style coercions (`<<` and `&` operands and results). -/
def toInt32 (n : Int) : Int := (n + 2 ^ 31) % 2 ^ 32 - 2 ^ 31

/-- One step of `EmbeddingService.generateCacheKey`'s hash loop:
`hash = ((hash << 5) - hash) + charCode; hash = hash & hash`. -/
def jsHashStep (h : Int) (c : Char) : Int :=
  toInt32 (toInt32 (h * 32) - h + c.toNat)

/-- Source: `EmbeddingService.generateCacheKey` — the 32-bit string hash used
as embedding-cache key.  The source stringifies the integer; the conversion
is injective, so the model keeps the integer itself. -/
def jsHash (t : Str) : Int := t.foldl jsHashStep 0

section JsMap

variable {α : Type _} {β : Type _} [DecidableEq α]

/-- JavaScript `Map.prototype.get` on an insertion-ordered association list. -/
def jsMapGet : List (α × β) → α → Option β
  | [], _ => none
  | (k', v) :: rest, k => if k' = k then some v else jsMapGet rest k

/-- JavaScript `Map.prototype.has`. -/
def jsMapHasKey (m : List (α × β)) (k : α) : Bool := (jsMapGet m k).isSome

/-- JavaScript `Map.prototype.set`: replace the value in place when the key
exists, otherwise append a new entry at the end of the insertion order. -/
def jsMapSet : List (α × β) → α → β → List (α × β)
  | [], k, v => [(k, v)]
  | (k', v') :: rest, k, v =>
    if k' = k then (k', v) :: rest else (k', v') :: jsMapSet rest k v

/-- JavaScript `Map.prototype.delete` (a key occurs at most once in a real
`Map`, so deleting the first occurrence is exact). -/
def jsMapDeleteFirst : List (α × β) → α → List (α × β)
  | [], _ => []
  | (k', v') :: rest, k => if k' = k then rest else (k', v') :: jsMapDeleteFirst rest k

/-- The eviction idiom `map.delete(map.keys().next().value)`: delete the
entry with the first (oldest-inserted) key. -/
def evictOldest : List (α × β) → List (α × β)
  | [] => []
  | (k, v) :: rest => jsMapDeleteFirst ((k, v) :: rest) k

/-- The shared bounded-map idiom of the embedding cache and the query
history: `map.set(key, value)` followed by
`if (map.size > cap) map.delete(map.keys().next().value)`. -/
def boundedInsert (cap : Nat) (m : List (α × β)) (k : α) (v : β) :
    List (α × β) :=
  let h1 := jsMapSet m k v
  if h1.length > cap then evictOldest h1 else h1

end JsMap

/-- Lowercases a string, JavaScript `String.prototype.toLowerCase` on the
ASCII text this pipeline produces. -/
def toLowerStr (s : Str) : Str := s.map Char.toLower

/-- Tests whether `pat` occurs at the start of the second argument. -/
def leadsWith : Str → Str → Bool
  | [], _ => true
  | _ :: _, [] => false
  | p :: ps, h :: hs => p == h && leadsWith ps hs

/-- JavaScript `String.prototype.includes`: `pat` occurs somewhere in the
second argument. -/
def strContains (pat : Str) : Str → Bool
  | [] => pat.isEmpty
  | h :: hs => leadsWith pat (h :: hs) || strContains pat hs

/-- Transient-error signatures of `EmbeddingService.generateEmbedding`'s
inner retry loop. -/
def embedRetryableSnippets : List Str :=
  [str "timeout", str "rate", str "429", str "network", str "http error", str "fetch"]

/-- Retryability test of `EmbeddingService.generateEmbedding`'s inner retry
loop: the lowercased message contains one of the transient signatures. -/
def embedRetryable (msg : Str) : Bool :=
  embedRetryableSnippets.any (fun s => strContains s (toLowerStr msg))

/-- An embedding vector (already normalized to a 1-D array of numbers; the
source's 1-D/2-D response-shape normalization is collapsed into the provider
parameter, and the source's validity check `embedding.length > 0` is kept). -/
abbrev Emb := List ℚ

/-- State of the `EmbeddingService` singleton: the bounded embedding cache,
plus a counter of provider (`featureExtraction`) calls issued so far, used to
index the provider oracle and to state how many calls a run issues. -/
structure EmbState where
  cache : List (Int × Emb)
  calls : Nat
  deriving DecidableEq

/-- Retry loop of `EmbeddingService.generateEmbedding` (attempts 1..3 with
retry only on transient errors).  `provider input k` is the outcome of the
k-th `featureExtraction` call of the whole execution; the returned `Nat` is
the updated call counter.  The fuel argument equals `3 - attempt + 1` and
never reaches 0. -/
def embedTryLoop (provider : Str → Nat → Except Str Emb) (input : Str) :
    Nat → Nat → Nat → Except Str Emb × Nat
  | calls, attempt, fuel + 1 =>
    match provider input calls with
    | .ok r => (.ok r, calls + 1)
    | .error e =>
      if attempt < 3 && embedRetryable e then
        embedTryLoop provider input (calls + 1) (attempt + 1) fuel
      else (.error e, calls + 1)
  | calls, _, 0 => (.error [], calls)

/-- The embedding cache capacity (`if (this.embeddingCache.size > 1000)`). -/
def embedCacheCap : Nat := 1000

/-- Source: `EmbeddingService.generateEmbedding` — validate, clean, consult
the cache keyed by the hash of the cleaned (pre-truncation) text, otherwise
truncate and call the provider with retry, validate the response, store it
in the cache and evict the oldest entry when the capacity is exceeded. -/
def generateEmbedding (provider : Str → Nat → Except Str Emb) (text : Str)
    (st : EmbState) : Except Str Emb × EmbState :=
  if text = [] then (.error (str "Text must be a non-empty string"), st)
  else
    let cleaned := embedCleanText text
    if cleaned.length = 0 then (.error (str "Text is empty after cleaning"), st)
    else
      let key := jsHash cleaned
      match jsMapGet st.cache key with
      | some emb => (.ok emb, st)
      | none =>
        let truncated := truncateText hfMaxLength cleaned
        match embedTryLoop provider truncated st.calls 1 3 with
        | (.error e, calls') => (.error e, { st with calls := calls' })
        | (.ok emb, calls') =>
          if emb = [] then
            (.error (str "Generated embedding is invalid"), { st with calls := calls' })
          else
            (.ok emb, { cache := boundedInsert embedCacheCap st.cache key emb,
                        calls := calls' })

/-- A primitive metadata value, as stored by ChromaDB after
`toPrimitiveMetadata` normalization (only the kinds this pipeline's claims
touch: strings and numbers). -/
inductive MetaVal
  | str : Str → MetaVal
  | num : Int → MetaVal
  deriving DecidableEq

/-- One condition of a ChromaDB `where` object: a plain value means
equality, `\x7b $gt: n \x7d` means strictly-greater-than. -/
inductive WhereCond
  | eq : MetaVal → WhereCond
  | gt : Int → WhereCond
  deriving DecidableEq

/-- A ChromaDB `where` object: a JavaScript object mapping metadata keys to
conditions, modelled as a key-ordered association list. -/
abbrev WhereFilter := List (String × WhereCond)

/-- Chunk metadata persisted by `DocumentService.processDocument*` (only the
fields the claims touch; the remaining fields — chunkIndex, totalChunks,
fileType, timestamps, sizes — do not participate in any filter or result
used by the claims). -/
structure FragMeta where
  documentId : Str
  source : Str
  expiresAtMs : Int
  deriving DecidableEq

/-- A fragment stored in the ChromaDB collection.  `distance` is the store's
native distance from the current query embedding to this fragment; the
metric itself is computed by the external store, so the model carries the
value as data. -/
structure StoredFrag where
  id : Str
  text : Str
  meta : FragMeta
  distance : ℚ
  deriving DecidableEq

/-- Metadata lookup by key on a stored fragment. -/
def metaAt (f : StoredFrag) : String → Option MetaVal
  | "documentId" => some (.str f.meta.documentId)
  | "source" => some (.str f.meta.source)
  | "expiresAtMs" => some (.num f.meta.expiresAtMs)
  | _ => none

/-- Whether a metadata value (or its absence) satisfies one `where`
condition; a missing key never matches. -/
def condHolds : Option MetaVal → WhereCond → Bool
  | some v, .eq w => decide (v = w)
  | some (.num m), .gt n => decide (n < m)
  | _, _ => false

/-- Whether a stored fragment satisfies every condition of a `where` object
(ChromaDB conjoins the entries of a `where` object). -/
def fragMatches (f : StoredFrag) (w : WhereFilter) : Bool :=
  w.all fun p => condHolds (metaAt f p.1) p.2

/-- JavaScript object spread `\x7b ...base, ...extra \x7d` on `where`
objects: entries of `extra` override entries of `base` with the same key. -/
def mergeWhere (base extra : WhereFilter) : WhereFilter :=
  base.filter (fun p => !(jsMapHasKey extra p.1)) ++ extra

/-- Inserts a fragment into a list sorted by ascending distance. -/
def insertByDist (f : StoredFrag) : List StoredFrag → List StoredFrag
  | [] => [f]
  | g :: rest =>
    if f.distance ≤ g.distance then f :: g :: rest else g :: insertByDist f rest

/-- Sorts fragments by ascending distance (nearest first). -/
def sortByDist : List StoredFrag → List StoredFrag
  | [] => []
  | f :: rest => insertByDist f (sortByDist rest)

/-- Modelled from the spec: the external ChromaDB `collection.query` call —
among the stored fragments matching the `where` object, return the
`nResults` nearest (ordered by the store's native distance metric). -/
def chromaQuery (store : List StoredFrag) (w : WhereFilter) (nResults : Nat) :
    List StoredFrag :=
  (sortByDist (store.filter (fragMatches · w))).take nResults

/-- One retrieval result as built by `VectorService.searchSimilar`:
`relevance = 1 - distance` (not clamped). -/
structure SearchResult where
  id : Str
  text : Str
  metadata : FragMeta
  distance : ℚ
  relevance : ℚ
  deriving DecidableEq

/-- Source: `VectorService.searchSimilar` — validate the query embedding,
conjoin the expiry condition `expiresAtMs > now` with the caller's filter by
object spread, query the store, and derive `relevance = 1 - distance`. -/
def searchSimilar (store : List StoredFrag) (nowMs : Int) (queryEmbedding : Emb)
    (maxResults : Nat) (filter : Option WhereFilter) :
    Except Str (List SearchResult) :=
  if queryEmbedding = [] then .error (str "Query embedding must be a non-empty array")
  else
    let w := mergeWhere [("expiresAtMs", .gt nowMs)] (filter.getD [])
    .ok ((chromaQuery store w maxResults).map fun f =>
      { id := f.id, text := f.text, metadata := f.meta, distance := f.distance,
        relevance := 1 - f.distance })

/-- One trimmed query-history entry (`RAGService.saveQueryHistory`); the
ISO timestamp is modelled as the millisecond clock value. -/
structure HistoryEntry where
  id : Str
  query : Str
  answer : Str
  sources : Nat
  confidence : ℚ
  processingTime : Int
  timestampMs : Int
  tokensUsed : Nat
  deriving DecidableEq

/-- The process-wide running counters of `RAGService` (`startTime` is fixed
at construction and never read by the claims, so it is omitted). -/
structure PerformanceMetrics where
  totalQueries : Nat
  successfulQueries : Nat
  failedQueries : Nat
  totalTokensUsed : Nat
  averageProcessingTime : Int
  averageConfidence : ℚ
  lastQueryTimeMs : Option Int
  deriving DecidableEq

/-- The metrics object as initialized in the `RAGService` constructor. -/
def freshMetrics : PerformanceMetrics :=
  { totalQueries := 0, successfulQueries := 0, failedQueries := 0,
    totalTokensUsed := 0, averageProcessingTime := 0, averageConfidence := 0,
    lastQueryTimeMs := none }

/-- The mutable service state of the `RAGService` singleton that the claims
are about: the query-history map and the performance metrics. -/
structure RAGState where
  queryHistory : List (Str × HistoryEntry)
  performanceMetrics : PerformanceMetrics
  deriving DecidableEq

/-- Transient-error signatures of `RAGService.isRetryableError`. -/
def ragRetryableSnippets : List Str :=
  [str "timeout", str "timed out", str "rate limit", str "too many requests",
   str "ecconnreset", str "socket hang up", str "network",
   str "service unavailable", str "gateway timeout", str "bad gateway",
   str "temporary", str "fetch failed"]

/-- Source: `RAGService.isRetryableError` — the lowercased message contains
one of the transient signatures (an absent message is never retryable, which
coincides with the empty string containing no signature). -/
def isRetryableError (msg : Str) : Bool :=
  ragRetryableSnippets.any fun s => strContains s (toLowerStr msg)

/-- One formatted source of a `QueryResult` (`RAGService.formatSources`). -/
structure SourceEntry where
  id : Str
  source : Str
  relevance : ℚ
  text : Str
  metadata : Option FragMeta
  deriving DecidableEq

/-- Source: `RAGService.formatSources` — keep id and relevance, default a
falsy (empty) metadata source to "Unknown", truncate the text to 200
characters with an ellipsis, attach metadata only when requested. -/
def formatSources (results : List SearchResult) (includeMetadata : Bool) :
    List SourceEntry :=
  results.map fun r =>
    { id := r.id
      source := if r.metadata.source = [] then str "Unknown" else r.metadata.source
      relevance := r.relevance
      text := r.text.take 200 ++ (if 200 < r.text.length then str "..." else [])
      metadata := if includeMetadata then some r.metadata else none }

/-- The `metadata` object of a successful `QueryResult` (the model name is a
fixed configuration constant and is omitted). -/
structure ResultMeta where
  documentsRetrieved : Nat
  totalTokensUsed : Nat
  attempts : Nat
  scopedDocumentId : Option Str
  deriving DecidableEq

/-- The value returned by `RAGService.processQuery`; the early empty-result
return carries no `metadata` field, hence the `Option`. -/
structure QueryResult where
  query : Str
  answer : Str
  sources : List SourceEntry
  confidence : ℚ
  processingTime : Int
  metadata : Option ResultMeta
  deriving DecidableEq

/-- The synthesis result of `RAGService.generateResponse`. -/
structure AIResponse where
  answer : Str
  confidence : ℚ
  tokensUsed : Nat
  deriving DecidableEq

/-- Mean relevance of a retrieval set
(`searchResults.reduce((sum, r) => sum + r.relevance, 0) / searchResults.length`). -/
def averageRelevance (results : List SearchResult) : ℚ :=
  (results.map (·.relevance)).sum / results.length

/-- Source: `RAGService.generateResponse` — the provider outcome `gen` is
the normalized (answer text, tokens used) pair of the external Mistral chat
call; an empty answer is rejected, and the confidence is derived as
`min(averageRelevance * 0.8 + 0.2, 1.0)`. -/
def generateResponse (gen : Except Str (Str × Nat))
    (searchResults : List SearchResult) : Except Str AIResponse :=
  match gen with
  | .error e => .error e
  | .ok (answer, tokensUsed) =>
    if answer = [] then .error (str "Invalid response from Mistral AI")
    else .ok { answer := answer,
               confidence := min (averageRelevance searchResults * (4 / 5) + 1 / 5) 1,
               tokensUsed := tokensUsed }

/-- JavaScript `Math.round` (round half up) on an exact rational. -/
def jsRound (q : ℚ) : Int := (q + 1 / 2).floor

/-- The idiom `Math.round(x * 100) / 100`: round to two decimal places. -/
def round2 (q : ℚ) : ℚ := (jsRound (q * 100) : ℚ) / 100

/-- Source: `RAGService.updatePerformanceMetrics` — bump the counters and,
on success, recompute both running averages with the incremental formula
`(oldAvg * (n - 1) + newValue) / n` where `n` is the new successful-query
count; the processing-time average is stored rounded to an integer and the
confidence average rounded to two decimals. -/
def updatePerformanceMetrics (m : PerformanceMetrics) (result : QueryResult)
    (processingTime nowMs : Int) (success : Bool) : PerformanceMetrics :=
  let m1 := { m with totalQueries := m.totalQueries + 1, lastQueryTimeMs := some nowMs }
  if success then
    let sq : Nat := m1.successfulQueries + 1
    let tokens := match result.metadata with | some md => md.totalTokensUsed | none => 0
    let newAvg : ℚ := ((m1.averageProcessingTime : ℚ) * ((sq : ℚ) - 1) + (processingTime : ℚ)) / (sq : ℚ)
    let newConfAvg : ℚ := (m1.averageConfidence * ((sq : ℚ) - 1) + result.confidence) / (sq : ℚ)
    { m1 with successfulQueries := sq,
              totalTokensUsed := m1.totalTokensUsed + tokens,
              averageProcessingTime := jsRound newAvg,
              averageConfidence := round2 newConfAvg }
  else
    { m1 with failedQueries := m1.failedQueries + 1 }

/-- The query-history capacity (`if (this.queryHistory.size > 1000)`). -/
def historyCap : Nat := 1000

/-- Source: `RAGService.saveQueryHistory` — build the trimmed entry (query
to 200 chars, answer to 500 chars), insert it under its generated id, and
evict the single oldest entry when the capacity is exceeded.  The generated
id (`query_` + clock + random suffix) is passed in as `entryId`. -/
def saveQueryHistory (hist : List (Str × HistoryEntry)) (entryId : Str)
    (nowMs : Int) (query : Str) (result : QueryResult) (processingTime : Int) :
    List (Str × HistoryEntry) :=
  let entry : HistoryEntry :=
    { id := entryId, query := query.take 200, answer := result.answer.take 500,
      sources := result.sources.length, confidence := result.confidence,
      processingTime := processingTime, timestampMs := nowMs,
      tokensUsed := match result.metadata with | some md => md.totalTokensUsed | none => 0 }
  boundedInsert historyCap hist entryId entry

/-- The canned empty-retrieval answer of `RAGService.processQuery`. -/
def noInfoAnswer : Str :=
  str "I could not find any relevant information to answer your question."

/-- Outcomes of the three pipeline stages for one outer attempt of
`RAGService.processQuery`.  Each stage helper
(`generateEmbeddingWithRetry`, `searchDocumentsWithRetryWithFilter`,
`generateResponseWithRetry`) performs its own internal retries but never
touches the service state, so it is modelled by its final outcome for this
attempt; `search` abstracts `vectorService.searchSimilar` applied to the
query embedding, `maxResults` and the `where` filter, and `gen` is the
normalized (answer, tokens) outcome of the external chat call consumed by
`generateResponse`. -/
structure AttemptEnv where
  embed : Except Str Emb
  search : Emb → Nat → Option WhereFilter → Except Str (List SearchResult)
  gen : Except Str (Str × Nat)

/-- How one attempt of `processQuery` ends: a full synthesis (`answered`,
which records history and metrics), the early empty-retrieval return
(`noInfo`), or a thrown error (`failed`, handled by the retry loop). -/
inductive AttemptOutcome
  | answered (r : QueryResult)
  | noInfo (r : QueryResult)
  | failed (e : Str)
  deriving DecidableEq

/-- JavaScript truthiness of the destructured `documentId`: an empty string
does not scope (`documentId ? ... : null`). -/
def scopeOf (docId : Option Str) : Option Str :=
  match docId with
  | some d => if d = [] then none else some d
  | none => none

/-- The `whereFilter` built by `processQuery` (line 89):
`documentId ? { documentId } : null`. -/
def whereFilterOf (docId : Option Str) : Option WhereFilter :=
  (scopeOf docId).map fun d => [("documentId", WhereCond.eq (MetaVal.str d))]

/-- One iteration of `processQuery`'s `try` block (part_006 lines 64-139):
validate the query, embed, build the scoping filter from `documentId`
(JavaScript truthiness: an empty string does not scope), search, return the
canned result on empty retrieval, otherwise synthesize and build the
`QueryResult`.  `procTime` stands for `Date.now() - startTime`. -/
def runAttempt (e : AttemptEnv) (query : Str) (maxResults : Nat)
    (includeMetadata : Bool) (docId : Option Str) (procTime : Int)
    (attempt : Nat) : AttemptOutcome :=
  if query = [] then .failed (str "Query must be a non-empty string")
  else
    match e.embed with
    | .error err => .failed err
    | .ok queryEmbedding =>
      if queryEmbedding = [] then .failed (str "Failed to generate query embedding")
      else
        match e.search queryEmbedding maxResults (whereFilterOf docId) with
        | .error err => .failed err
        | .ok searchResults =>
          if searchResults = [] then
            .noInfo { query := query, answer := noInfoAnswer, sources := [],
                      confidence := 0, processingTime := procTime, metadata := none }
          else
            match generateResponse e.gen searchResults with
            | .error err => .failed err
            | .ok ai =>
              .answered
                { query := query, answer := ai.answer,
                  sources := formatSources searchResults includeMetadata,
                  confidence := ai.confidence, processingTime := procTime,
                  metadata := some { documentsRetrieved := searchResults.length,
                                     totalTokensUsed := ai.tokensUsed,
                                     attempts := attempt,
                                     scopedDocumentId := scopeOf docId } }

/-- The state update of `processQuery`'s success path:
`saveQueryHistory` followed by `updatePerformanceMetrics(result, t, true)`. -/
def recordSuccess (st : RAGState) (histId : Str) (nowMs : Int) (query : Str)
    (r : QueryResult) (procTime : Int) : RAGState :=
  { queryHistory := saveQueryHistory st.queryHistory histId nowMs query r procTime,
    performanceMetrics := updatePerformanceMetrics st.performanceMetrics r procTime nowMs true }

/-- Retry loop of `RAGService.processQuery` (`while (attempt < maxRetries)`
with `attempt++` first, so attempts take the values 1, 2, 3): on a failure
that is retryable and not on the last attempt the whole sequence restarts,
otherwise the error propagates with the state unchanged.  The fuel argument
starts at 3 and stays positive while `attempt ≤ 3`. -/
def pqGo (env : Nat → AttemptEnv) (histId : Str) (nowMs : Int) (query : Str)
    (maxResults : Nat) (includeMetadata : Bool) (docId : Option Str)
    (procTime : Int) (st : RAGState) :
    Nat → Nat → Except Str QueryResult × RAGState
  | attempt, fuel + 1 =>
    match runAttempt (env attempt) query maxResults includeMetadata docId procTime attempt with
    | .answered r => (.ok r, recordSuccess st histId nowMs query r procTime)
    | .noInfo r => (.ok r, st)
    | .failed e =>
      if attempt < 3 && isRetryableError e then
        pqGo env histId nowMs query maxResults includeMetadata docId procTime st (attempt + 1) fuel
      else (.error e, st)
  | _, 0 => (.error [], st)

/-- Source: `RAGService.processQuery` — the full per-query pipeline with the
supervisory retry loop (`maxRetries = 3`); `docId` is the `documentId`
destructured from the options argument. -/
def processQuery (env : Nat → AttemptEnv) (histId : Str) (nowMs : Int)
    (query : Str) (maxResults : Nat) (includeMetadata : Bool)
    (docId : Option Str) (procTime : Int) (st : RAGState) :
    Except Str QueryResult × RAGState :=
  pqGo env histId nowMs query maxResults includeMetadata docId procTime st 1 3

/-- One entry of a batch result: a fulfilled `QueryResult` or the captured
failure record with `status: 'failed'`. -/
inductive BatchEntry
  | done (r : QueryResult)
  | failed (query errMsg : Str)
  deriving DecidableEq

/-- Converts the settled outcome of one `processQuery` promise into the
entry pushed onto the batch result list: a fulfilled promise contributes
its value, a rejected one contributes the failure record built from the
query and `reason.message`. -/
def settleEntry (outcome : Except Str QueryResult) (query : Str) : BatchEntry :=
  match outcome with
  | .ok r => BatchEntry.done r
  | .error e => BatchEntry.failed query e

/-- Settles one sub-batch the way `Promise.allSettled(...).forEach` does:
one entry per sub-batch member, in sub-batch order.  `run k q` is the
outcome of the `processQuery` promise for overall query index `k`. -/
def settleBatch (run : Nat → Str → Except Str QueryResult) :
    Nat → List Str → List BatchEntry
  | _, [] => []
  | i, q :: rest => settleEntry (run i q) q :: settleBatch run (i + 1) rest

/-- Sub-batch loop of `RAGService.batchProcessQueries` (`batchSize = 3`):
process `queries.slice(i, i + 3)` at a time and append its settled entries,
in order.  `run k q` is the outcome of the `processQuery` call for the k-th
query of the whole batch (the shared-state effects of those calls do not
influence the shape of the result list, which is what the claims are
about).  The three explicit head patterns spell out `take 3`/`skip 3` of
the source's slicing loop. -/
def batchGo (run : Nat → Str → Except Str QueryResult) :
    Nat → List Str → List BatchEntry
  | _, [] => []
  | i, [a] => settleBatch run i [a]
  | i, [a, b] => settleBatch run i [a, b]
  | i, a :: b :: c :: rest => settleBatch run i [a, b, c] ++ batchGo run (i + 3) rest

/-- Source: `RAGService.batchProcessQueries` — fan the query list out in
sub-batches of 3 and collect one entry per query in input order. -/
def batchProcessQueries (run : Nat → Str → Except Str QueryResult)
    (queries : List Str) : List BatchEntry :=
  batchGo run 0 queries

/-- Source: `TextChunker.cleanText` — collapse all whitespace runs to single
spaces and trim.  (The second replace `/\n\s*\n/g → '\n\n'` of the source is
the identity here because the first replace has already removed every
newline.) -/
def chunkerCleanText (t : Str) : Str := trim (collapseWs t)

/-- The default separator priority list of the `TextChunker` constructor. -/
def defaultSeparators : List Str :=
  [str "\n\n", str "\n", str ". ", str "! ", str "? ", str "; ", str ": ",
   str ", ", str " "]

/-- JavaScript `chunk.lastIndexOf(sep)`: the largest index at which `sep`
occurs as a substring, or `-1` when it does not occur. -/
def lastIndexOfSub (chunk sep : Str) : Int :=
  let hits := (List.range (chunk.length + 1)).filter
    fun i => leadsWith sep (chunk.drop i)
  match hits.getLast? with
  | some i => (i : Int)
  | none => -1

/-- Source: `TextChunker.findBestSplitPoint` — try the separators in
priority order; the first one whose last occurrence lies strictly inside
`(0, chunk.length - overlapSize)` wins and the chunk is cut just after it
(trimmed); with no qualifying separator the whole (trimmed) chunk is the
hard split. -/
def findBestSplitPoint (overlapSize : Nat) (chunk : Str) : List Str → Str
  | [] => trim chunk
  | sep :: seps =>
    let lastIndex := lastIndexOfSub chunk sep
    if 0 < lastIndex ∧ lastIndex < (chunk.length : Int) - (overlapSize : Int) then
      trim (chunk.take (lastIndex.toNat + sep.length))
    else
      findBestSplitPoint overlapSize chunk seps

/-- Source: `TextChunker.createOverlap` — the trailing `overlapSize`
characters of the chunk just emitted. -/
def createOverlap (overlapSize : Nat) (lastChunk : Str) : Str :=
  lastChunk.drop (lastChunk.length - overlapSize)

/-- Character loop of `TextChunker.createChunks`: append the next character
to the candidate; once the candidate reaches `maxChunkSize`, emit the best
split (when it is non-empty) and restart the candidate from the overlap;
at the end flush the trimmed remainder when non-empty. -/
def createChunksGo (maxChunkSize overlapSize : Nat) (seps : List Str) :
    Str → Str → List Str → List Str
  | [], cur, acc => if trim cur ≠ [] then acc ++ [trim cur] else acc
  | c :: rest, cur, acc =>
    let cur1 := cur ++ [c]
    if maxChunkSize ≤ cur1.length then
      let chunk := findBestSplitPoint overlapSize cur1 seps
      if chunk ≠ [] then
        createChunksGo maxChunkSize overlapSize seps rest (createOverlap overlapSize chunk) (acc ++ [chunk])
      else
        createChunksGo maxChunkSize overlapSize seps rest cur1 acc
    else
      createChunksGo maxChunkSize overlapSize seps rest cur1 acc

/-- Source: `TextChunker.createChunks`. -/
def createChunks (maxChunkSize overlapSize : Nat) (seps : List Str) (text : Str) :
    List Str :=
  createChunksGo maxChunkSize overlapSize seps text [] []

/-- Source: `TextChunker.splitText` for an instance constructed with the
given options — clean the text, return it whole when it fits, otherwise
chunk it.  (The non-string-input guard returns `[]` and is outside the
model, whose inputs are always strings.) -/
def splitText (maxChunkSize overlapSize : Nat) (seps : List Str) (text : Str) :
    List Str :=
  let cleanedText := chunkerCleanText text
  if cleanedText.length ≤ maxChunkSize then [cleanedText]
  else createChunks maxChunkSize overlapSize seps cleanedText

/-- The default `TextChunker` instance exported by the module
(`maxChunkSize 1000`, `overlapSize 200`, default separators). -/
def splitTextDefault (text : Str) : List Str :=
  splitText 1000 200 defaultSeparators text

/-! Helper lemmas about the JavaScript `Map` model. -/

theorem jsMapSet_of_get_none {α β : Type _} [DecidableEq α]
    {m : List (α × β)} {k : α} (v : β) (h : jsMapGet m k = none) :
    jsMapSet m k v = m ++ [(k, v)] := by
  induction m with
  | nil => rfl
  | cons p rest ih =>
    obtain ⟨k', v'⟩ := p
    by_cases hk : k' = k
    · simp [jsMapGet, hk] at h
    · simp [jsMapGet, hk] at h
      simp [jsMapSet, hk, ih h]

theorem jsMapSet_length_of_get_some {α β : Type _} [DecidableEq α]
    {m : List (α × β)} {k : α} {w : β} (v : β) (h : jsMapGet m k = some w) :
    (jsMapSet m k v).length = m.length := by
  induction m with
  | nil => simp [jsMapGet] at h
  | cons p rest ih =>
    obtain ⟨k', v'⟩ := p
    by_cases hk : k' = k
    · simp [jsMapSet, hk]
    · simp [jsMapGet, hk] at h
      simp [jsMapSet, hk, ih h]

theorem evictOldest_cons {α β : Type _} [DecidableEq α] (p : α × β)
    (rest : List (α × β)) : evictOldest (p :: rest) = rest := by
  obtain ⟨k, v⟩ := p
  simp [evictOldest, jsMapDeleteFirst]

theorem boundedInsert_length_le {α β : Type _} [DecidableEq α] (cap : Nat)
    (m : List (α × β)) (k : α) (v : β) (h : m.length ≤ cap) :
    (boundedInsert cap m k v).length ≤ cap := by
  simp only [boundedInsert]
  cases hcase : jsMapGet m k with
  | some w =>
    have hlen := jsMapSet_length_of_get_some (m := m) (k := k) (w := w) v hcase
    rw [hlen, if_neg (by omega), hlen]
    exact h
  | none =>
    rw [jsMapSet_of_get_none v hcase]
    by_cases hgt : (m ++ [(k, v)]).length > cap
    · rw [if_pos hgt]
      rcases m with _ | ⟨p, t⟩
      · simp only [List.nil_append, evictOldest_cons, List.length_nil]
        omega
      · rw [List.cons_append, evictOldest_cons]
        simp only [List.length_cons] at h
        simp only [List.length_append, List.length_cons, List.length_nil]
        omega
    · rw [if_neg hgt]
      omega

theorem boundedInsert_of_full {α β : Type _} [DecidableEq α] {cap : Nat}
    (m : List (α × β)) (k : α) (v : β) (hfull : m.length = cap)
    (hfresh : jsMapGet m k = none) (hpos : 0 < cap) :
    boundedInsert cap m k v = m.tail ++ [(k, v)] := by
  simp only [boundedInsert]
  rw [jsMapSet_of_get_none v hfresh]
  rw [if_pos (by simp only [List.length_append, List.length_cons, List.length_nil]; omega)]
  rcases m with _ | ⟨p, t⟩
  · simp only [List.length_nil] at hfull
    omega
  · rw [List.cons_append, evictOldest_cons]
    rfl

theorem boundedInsert_of_fresh_lt {α β : Type _} [DecidableEq α] {cap : Nat}
    (m : List (α × β)) (k : α) (v : β) (hlt : m.length < cap)
    (hfresh : jsMapGet m k = none) :
    boundedInsert cap m k v = m ++ [(k, v)] := by
  simp only [boundedInsert]
  rw [jsMapSet_of_get_none v hfresh]
  rw [if_neg (by simp only [List.length_append, List.length_cons, List.length_nil]; omega)]

theorem ratFloor_eq_intFloor (q : ℚ) : q.floor = ⌊q⌋ := by
  rw [Rat.floor_def', Rat.floor_def]

theorem jsMapGet_of_replicate_ne {α β : Type _} [DecidableEq α]
    {k k' : α} (hne : k ≠ k') (v : β) :
    ∀ n, jsMapGet (List.replicate n (k, v)) k' = none := by
  intro n
  induction n with
  | zero => rfl
  | succ n ih => simpa [List.replicate_succ, jsMapGet, hne] using ih

/-- A query result with the given confidence, used to state the metrics
scenario of C8. -/
def qrWithConfidence (conf : ℚ) : QueryResult :=
  { query := [], answer := str "a", sources := [], confidence := conf,
    processingTime := 0, metadata := none }

/-- The metrics after one successful query of confidence 0.4 that took
100 ms. -/
def c8AfterFirst : PerformanceMetrics :=
  { totalQueries := 1, successfulQueries := 1, failedQueries := 0,
    totalTokensUsed := 0, averageProcessingTime := 100,
    averageConfidence := 2 / 5, lastQueryTimeMs := some 0 }

/-- The metrics of `c8AfterFirst` after one additional failed query. -/
def c8AfterFailure : PerformanceMetrics :=
  { totalQueries := 2, successfulQueries := 1, failedQueries := 1,
    totalTokensUsed := 0, averageProcessingTime := 100,
    averageConfidence := 2 / 5, lastQueryTimeMs := some 0 }

/-- C8: from fresh metrics, two successful queries with confidences 0.4 and
0.8 leave `averageConfidence = 0.6`, with the intermediate average 0.4 after
the first success; the success count (not the total count) is the
denominator, so an interleaved failed update changes `totalQueries` and
`failedQueries` but not the confidence average; the processing-time average
follows the same incremental formula (100 ms then 300 ms giving 200 ms). -/
theorem C8_metrics_incremental_scenario :
    updatePerformanceMetrics freshMetrics (qrWithConfidence (2 / 5)) 100 0 true
      = c8AfterFirst ∧
    updatePerformanceMetrics c8AfterFirst (qrWithConfidence 0) 50 0 false
      = c8AfterFailure ∧
    (updatePerformanceMetrics c8AfterFailure (qrWithConfidence (4 / 5)) 300 0 true).averageConfidence
      = 3 / 5 ∧
    (updatePerformanceMetrics c8AfterFailure (qrWithConfidence (4 / 5)) 300 0 true).averageProcessingTime
      = 200 ∧
    (updatePerformanceMetrics c8AfterFailure (qrWithConfidence (4 / 5)) 300 0 true).successfulQueries
      = 2 ∧
    (updatePerformanceMetrics c8AfterFailure (qrWithConfidence (4 / 5)) 300 0 true).totalQueries
      = 3 := by
  refine ⟨?_, ?_, ?_, ?_, ?_, ?_⟩
  · norm_num [updatePerformanceMetrics, freshMetrics, qrWithConfidence,
      c8AfterFirst, round2, jsRound, ratFloor_eq_intFloor]
  · norm_num [updatePerformanceMetrics, qrWithConfidence, c8AfterFirst,
      c8AfterFailure]
  · norm_num [updatePerformanceMetrics, qrWithConfidence, c8AfterFailure,
      round2, jsRound, ratFloor_eq_intFloor]
  · norm_num [updatePerformanceMetrics, qrWithConfidence, c8AfterFailure,
      round2, jsRound, ratFloor_eq_intFloor]
  · norm_num [updatePerformanceMetrics, qrWithConfidence, c8AfterFailure]
  · norm_num [updatePerformanceMetrics, qrWithConfidence, c8AfterFailure]

/-- C9: `saveQueryHistory` keeps the history at or below the 1000-entry cap,
and inserting a fresh entry into a full history evicts exactly the single
oldest (first-inserted) entry, leaving exactly 1000 entries with the new
entry appended at the end of the insertion order. -/
theorem C9_history_cap (hist : List (Str × HistoryEntry)) (entryId : Str)
    (nowMs : Int) (query : Str) (r : QueryResult) (pt : Int) :
    (hist.length ≤ historyCap →
      (saveQueryHistory hist entryId nowMs query r pt).length ≤ historyCap) ∧
    (hist.length = historyCap → jsMapHasKey hist entryId = false →
      ∃ e, saveQueryHistory hist entryId nowMs query r pt = hist.tail ++ [(entryId, e)] ∧
        (saveQueryHistory hist entryId nowMs query r pt).length = historyCap) := by
  have hget : jsMapHasKey hist entryId = false → jsMapGet hist entryId = none := by
    intro h
    simpa [jsMapHasKey, Option.isSome_iff_exists] using h
  constructor
  · intro hle
    exact boundedInsert_length_le historyCap hist entryId _ hle
  · intro hfull hfresh
    have heq := boundedInsert_of_full hist entryId
      ({ id := entryId, query := query.take 200, answer := r.answer.take 500,
         sources := r.sources.length, confidence := r.confidence,
         processingTime := pt, timestampMs := nowMs,
         tokensUsed := match r.metadata with | some md => md.totalTokensUsed | none => 0 } :
        HistoryEntry)
      hfull (hget hfresh) (by norm_num [historyCap])
    refine ⟨_, heq, ?_⟩
    show (boundedInsert historyCap hist entryId _).length = historyCap
    rw [heq]
    rcases hist with _ | ⟨p, t⟩
    · simp [historyCap] at hfull
    · simp only [List.length_cons] at hfull
      simp only [List.tail_cons, List.length_append, List.length_cons, List.length_nil]
      omega

/-- A placeholder history entry for the C9 witness scenario. -/
def c9Entry : HistoryEntry :=
  { id := str "k", query := [], answer := [], sources := 0, confidence := 0,
    processingTime := 0, timestampMs := 0, tokensUsed := 0 }

/-- A full (1000-entry) query history for the C9 witness scenario. -/
def c9Hist : List (Str × HistoryEntry) := List.replicate 1000 (str "k", c9Entry)

/-- An empty placeholder query result for concrete scenarios. -/
def dummyResult : QueryResult :=
  { query := [], answer := [], sources := [], confidence := 0,
    processingTime := 0, metadata := none }

/-- C9 witness: a full history of 1000 entries plus a fresh id — the save
leaves exactly 1000 entries, the oldest one evicted. -/
theorem C9_history_cap_witness :
    c9Hist.length = historyCap ∧ jsMapHasKey c9Hist (str "n") = false ∧
    ∃ e, saveQueryHistory c9Hist (str "n") 0 [] dummyResult 0 = c9Hist.tail ++ [(str "n", e)] ∧
      (saveQueryHistory c9Hist (str "n") 0 [] dummyResult 0).length = historyCap := by
  have hlen : c9Hist.length = historyCap := by
    rw [c9Hist, List.length_replicate, historyCap]
  have hfresh : jsMapHasKey c9Hist (str "n") = false := by
    have h := jsMapGet_of_replicate_ne (β := HistoryEntry)
      (show str "k" ≠ str "n" by decide) c9Entry 1000
    rw [c9Hist, jsMapHasKey, h]
    rfl
  exact ⟨hlen, hfresh, (C9_history_cap c9Hist (str "n") 0 [] dummyResult 0).2 hlen hfresh⟩

/-! Length bounds for the truncation loops (claim C4). -/

theorem trimL_length_le (s : Str) : (trimL s).length ≤ s.length :=
  List.Sublist.length_le (List.dropWhile_sublist _)

theorem trimR_length_le (s : Str) : (trimR s).length ≤ s.length := by
  have h := List.Sublist.length_le (List.dropWhile_sublist (l := s.reverse) isWs)
  simpa [trimR] using h

theorem trim_length_le (s : Str) : (trim s).length ≤ s.length :=
  le_trans (trimR_length_le (trimL s)) (trimL_length_le s)

theorem sentLoop_length_le (maxLength : Nat) :
    ∀ (ss : List Str) (acc : Str), acc.length ≤ maxLength + 1 →
      (sentLoop maxLength ss acc).length ≤ maxLength + 1 := by
  intro ss
  induction ss with
  | nil => intro acc h; exact h
  | cons s rest ih =>
    intro acc h
    rw [sentLoop]
    split
    · next hfit =>
      apply ih
      simp only [List.length_append, List.length_cons, List.length_nil]
      simp only [List.length_append] at hfit
      omega
    · exact h

theorem wordLoop_length_le (maxLength : Nat) :
    ∀ (ws : List Str) (acc : Str), acc.length ≤ maxLength →
      (wordLoop maxLength ws acc).length ≤ maxLength := by
  intro ws
  induction ws with
  | nil => intro acc h; exact h
  | cons w rest ih =>
    intro acc h
    rw [wordLoop]
    split
    · next hfit =>
      apply ih
      simp only [List.length_append, List.length_cons, List.length_nil] at hfit ⊢
      omega
    · exact h

/-- C4 (amended): for text longer than the model limit, `truncateText`
returns at most `maxLength + 1` characters — the sentence-accumulation path
checks the limit before appending the sentence-terminating period, so it can
overshoot by exactly that one character; when no sentence fits, the word and
hard-truncation fallbacks stay within the limit itself. -/
theorem C4_truncateText_bound (maxLength : Nat) (t : Str)
    (h : maxLength < t.length) :
    (truncateText maxLength t).length ≤ maxLength + 1 ∧
    (sentLoop maxLength (splitSentenceRuns t) [] = [] →
      (truncateText maxLength t).length ≤ maxLength) := by
  have hne : ¬ t.length ≤ maxLength := by omega
  have hsent := sentLoop_length_le maxLength (splitSentenceRuns t) []
    (by simp)
  have hword : (trim (wordLoop maxLength (splitChar ' ' t) [])).length ≤ maxLength :=
    le_trans (trim_length_le _)
      (wordLoop_length_le maxLength (splitChar ' ' t) [] (by simp))
  have htake : (t.take maxLength).length ≤ maxLength := by
    simp [List.length_take]
  constructor
  · simp only [truncateText, if_neg hne]
    split <;> split <;> omega
  · intro hnil
    by_cases hz : trim (wordLoop maxLength (splitChar ' ' t) []) = []
    · have heq : truncateText maxLength t = t.take maxLength := by
        simp [truncateText, if_neg hne, hnil, hz]
      rw [heq]
      exact htake
    · have heq : truncateText maxLength t = trim (wordLoop maxLength (splitChar ' ' t) []) := by
        simp [truncateText, if_neg hne, hnil, hz]
      rw [heq]
      exact hword

/-- The concrete over-long cleaned text of the C4 counterexample: 512 `a`s,
a sentence boundary, and a short second sentence. -/
def c4Text : Str := List.replicate 512 'a' ++ str ". bb"

set_option maxRecDepth 100000 in
/-- C4 counterexample: `c4Text` is a cleaned text (cleaning is the identity
on it) of length 516 > 512, yet `truncateText` returns 513 characters —
more than the model's max input length 512, refuting "returns a string
whose length is within the limit". -/
theorem C4_truncateText_counterexample :
    embedCleanText c4Text = c4Text ∧ hfMaxLength < c4Text.length ∧
    (truncateText hfMaxLength c4Text).length = hfMaxLength + 1 := by
  refine ⟨?_, ?_, ?_⟩ <;> decide

set_option maxRecDepth 100000 in
/-- C4 witness for the amended bound, at the model limit 512 and the
concrete 516-character text. -/
theorem C4_truncateText_bound_witness :
    hfMaxLength < c4Text.length ∧
    (truncateText hfMaxLength c4Text).length ≤ hfMaxLength + 1 := by
  refine ⟨by decide, ?_⟩
  exact (C4_truncateText_bound hfMaxLength c4Text (by decide)).1

/-! Batch fan-out (claim C6). -/

theorem settleBatch_length (run : Nat → Str → Except Str QueryResult) :
    ∀ (qs : List Str) (i : Nat), (settleBatch run i qs).length = qs.length := by
  intro qs
  induction qs with
  | nil => intro i; rfl
  | cons q rest ih =>
    intro i
    simp [settleBatch, ih]

theorem batchGo_eq_settleBatch (run : Nat → Str → Except Str QueryResult) :
    ∀ (n : Nat) (qs : List Str), qs.length ≤ n → ∀ i,
      batchGo run i qs = settleBatch run i qs := by
  intro n
  induction n with
  | zero =>
    intro qs h i
    cases qs with
    | nil => rfl
    | cons q rest => simp at h
  | succ n ih =>
    intro qs h i
    match qs with
    | [] => rfl
    | [a] => rfl
    | [a, b] => rfl
    | a :: b :: c :: rest =>
      rw [batchGo]
      have hr : rest.length ≤ n := by
        simp only [List.length_cons] at h
        omega
      rw [ih rest hr (i + 3)]
      have h3 : i + 1 + 1 + 1 = i + 3 := by omega
      simp only [settleBatch, List.cons_append, List.nil_append, h3]

/-- The outcome oracle for the C6 scenario: the second query (index 1)
rejects, the others fulfill. -/
def c6run : Nat → Str → Except Str QueryResult :=
  fun i _ => if i = 1 then .error (str "boom") else .ok dummyResult

/-- C6: `batchProcessQueries` produces exactly one entry per input query,
in input order, equal to settling every query individually (so a rejected
query contributes its failure record at its own position and never disturbs
siblings or later sub-batches); in particular the result list always has
the input's length, and for 3 queries where the 2nd fails permanently the
entries are fulfilled, failed, fulfilled in that order. -/
theorem C6_batch_order_isolation :
    (∀ (run : Nat → Str → Except Str QueryResult) (queries : List Str),
      batchProcessQueries run queries = settleBatch run 0 queries) ∧
    (∀ (run : Nat → Str → Except Str QueryResult) (queries : List Str),
      (batchProcessQueries run queries).length = queries.length) ∧
    batchProcessQueries c6run [str "a", str "b", str "c"] =
      [BatchEntry.done dummyResult, BatchEntry.failed (str "b") (str "boom"),
       BatchEntry.done dummyResult] := by
  have hmain : ∀ (run : Nat → Str → Except Str QueryResult) (queries : List Str),
      batchProcessQueries run queries = settleBatch run 0 queries := by
    intro run queries
    exact batchGo_eq_settleBatch run queries.length queries le_rfl 0
  refine ⟨hmain, ?_, ?_⟩
  · intro run queries
    rw [hmain run queries, settleBatch_length]
  · rfl

/-! Embedding-cache behaviour (claim C7). -/

theorem jsMapGet_append_of_none {α β : Type _} [DecidableEq α]
    {m : List (α × β)} {k : α} (h : jsMapGet m k = none) (l : List (α × β)) :
    jsMapGet (m ++ l) k = jsMapGet l k := by
  induction m with
  | nil => rfl
  | cons p rest ih =>
    obtain ⟨k', v'⟩ := p
    by_cases hk : k' = k
    · simp [jsMapGet, hk] at h
    · simp only [jsMapGet, hk, if_false, List.cons_append] at h ⊢
      exact ih h

theorem jsMapGet_tail_of_none {α β : Type _} [DecidableEq α]
    {m : List (α × β)} {k : α} (h : jsMapGet m k = none) :
    jsMapGet m.tail k = none := by
  cases m with
  | nil => rfl
  | cons p rest =>
    obtain ⟨k', v'⟩ := p
    by_cases hk : k' = k
    · simp [jsMapGet, hk] at h
    · simpa [jsMapGet, hk] using h

theorem jsMapGet_boundedInsert_self {α β : Type _} [DecidableEq α]
    {cap : Nat} (hpos : 0 < cap) {m : List (α × β)} {k : α} (v : β)
    (h : jsMapGet m k = none) :
    jsMapGet (boundedInsert cap m k v) k = some v := by
  have hlast : ∀ (m' : List (α × β)), jsMapGet m' k = none →
      jsMapGet (m' ++ [(k, v)]) k = some v := by
    intro m' hm'
    rw [jsMapGet_append_of_none hm']
    simp [jsMapGet]
  simp only [boundedInsert]
  rw [jsMapSet_of_get_none v h]
  split
  · next hgt =>
    rcases m with _ | ⟨p, t⟩
    · simp only [List.length_append, List.length_nil, List.length_cons] at hgt
      omega
    · rw [List.cons_append, evictOldest_cons]
      obtain ⟨k', v'⟩ := p
      by_cases hk : k' = k
      · simp [jsMapGet, hk] at h
      · simp only [jsMapGet, hk, if_false] at h
        exact hlast t h
  · next hgt => exact hlast m h

/-- Characterization of a successful `generateEmbedding` run: the cleaned
text is non-empty and the embedding is cached under the hash of the cleaned
text in the post state. -/
theorem generateEmbedding_ok_cached {p : Str → Nat → Except Str Emb} {t : Str}
    {st : EmbState} {e : Emb}
    (hok : (generateEmbedding p t st).1 = .ok e) :
    (embedCleanText t).length ≠ 0 ∧
    jsMapGet ((generateEmbedding p t st).2).cache (jsHash (embedCleanText t)) = some e := by
  by_cases ht : t = []
  · simp [generateEmbedding, ht] at hok
  · by_cases hc : (embedCleanText t).length = 0
    · simp [generateEmbedding, ht, hc] at hok
    · refine ⟨hc, ?_⟩
      rw [generateEmbedding] at hok ⊢
      rw [if_neg ht, if_neg hc] at hok ⊢
      cases hget : jsMapGet st.cache (jsHash (embedCleanText t)) with
      | some emb =>
        simp only [hget] at hok ⊢
        simp only [Except.ok.injEq] at hok
        rw [hok]
      | none =>
        simp only [hget] at hok ⊢
        cases htry : embedTryLoop p (truncateText hfMaxLength (embedCleanText t)) st.calls 1 3 with
        | mk r calls' =>
          cases r with
          | error err => simp [htry] at hok
          | ok emb =>
            by_cases hemb : emb = []
            · simp [htry, hemb] at hok
            · simp only [htry, hemb, if_neg, if_false] at hok ⊢
              simp only [Except.ok.injEq] at hok
              subst hok
              exact jsMapGet_boundedInsert_self (by norm_num [embedCacheCap]) emb hget

/-- Cache-hit behaviour of `generateEmbedding`: with valid text whose
cleaned form is already cached, the call returns the cached embedding and
leaves the whole state (cache and provider-call counter) untouched. -/
theorem generateEmbedding_hit {p : Str → Nat → Except Str Emb} {t : Str}
    {st : EmbState} {e : Emb} (ht : t ≠ [])
    (hc : (embedCleanText t).length ≠ 0)
    (hget : jsMapGet st.cache (jsHash (embedCleanText t)) = some e) :
    generateEmbedding p t st = (.ok e, st) := by
  simp [generateEmbedding, ht, hc, hget]

/-- Shape of the cache after any `generateEmbedding` call: unchanged, or
one fresh entry inserted through the bounded-insert idiom. -/
theorem generateEmbedding_cache_shape (p : Str → Nat → Except Str Emb)
    (t : Str) (st : EmbState) :
    (generateEmbedding p t st).2.cache = st.cache ∨
    ∃ k v, jsMapGet st.cache k = none ∧
      (generateEmbedding p t st).2.cache = boundedInsert embedCacheCap st.cache k v := by
  by_cases ht : t = []
  · left; simp [generateEmbedding, ht]
  · by_cases hc : (embedCleanText t).length = 0
    · left; simp [generateEmbedding, ht, hc]
    · cases hget : jsMapGet st.cache (jsHash (embedCleanText t)) with
      | some emb => left; simp [generateEmbedding, ht, hc, hget]
      | none =>
        cases htry : embedTryLoop p (truncateText hfMaxLength (embedCleanText t)) st.calls 1 3 with
        | mk r calls' =>
          cases r with
          | error err => left; simp [generateEmbedding, ht, hc, hget, htry]
          | ok emb =>
            by_cases hemb : emb = []
            · left; simp [generateEmbedding, ht, hc, hget, htry, hemb]
            · right
              refine ⟨jsHash (embedCleanText t), emb, hget, ?_⟩
              simp [generateEmbedding, ht, hc, hget, htry, hemb]

/-- Call-count bound for one `generateEmbedding` run against a provider
that succeeds immediately: at most one `featureExtraction` call is issued. -/
theorem generateEmbedding_calls_le {p : Str → Nat → Except Str Emb}
    {e : Emb} (hp : ∀ s n, p s n = .ok e) (t : Str) (st : EmbState) :
    (generateEmbedding p t st).2.calls ≤ st.calls + 1 := by
  by_cases ht : t = []
  · simp [generateEmbedding, ht]
  · by_cases hc : (embedCleanText t).length = 0
    · simp [generateEmbedding, ht, hc]
    · cases hget : jsMapGet st.cache (jsHash (embedCleanText t)) with
      | some emb => simp [generateEmbedding, ht, hc, hget]
      | none =>
        have htry : embedTryLoop p (truncateText hfMaxLength (embedCleanText t)) st.calls 1 3
            = (.ok e, st.calls + 1) := by
          rw [embedTryLoop, hp]
        by_cases hemb : e = []
        · simp [generateEmbedding, ht, hc, hget, htry, hemb]
        · simp [generateEmbedding, ht, hc, hget, htry, hemb]

/-- C7: the embedding cache deduplicates and stays bounded.  Part 1: from a
cache within the 1000-entry capacity, any call leaves it within capacity,
and the cache either is unchanged, gains one fresh entry (when below
capacity), or evicts exactly the oldest entry while appending the fresh one
(when full).  Part 2: after a call that returns an embedding, a second call
with identically-cleaned text returns the same embedding from the cache and
leaves the state — including the provider-call counter — untouched, so it
issues no provider call.  Part 3: against a provider that succeeds
immediately, the two calls together issue at most one `featureExtraction`
call. -/
theorem C7_embedding_cache :
    (∀ (p : Str → Nat → Except Str Emb) (t : Str) (st : EmbState),
      st.cache.length ≤ embedCacheCap →
        ((generateEmbedding p t st).2.cache.length ≤ embedCacheCap ∧
         ((generateEmbedding p t st).2.cache = st.cache ∨
          (∃ k v, (generateEmbedding p t st).2.cache = st.cache ++ [(k, v)] ∧
            st.cache.length < embedCacheCap) ∨
          (∃ k v, (generateEmbedding p t st).2.cache = st.cache.tail ++ [(k, v)] ∧
            st.cache.length = embedCacheCap)))) ∧
    (∀ (p : Str → Nat → Except Str Emb) (t1 t2 : Str) (st : EmbState) (e : Emb),
      embedCleanText t1 = embedCleanText t2 →
      (generateEmbedding p t1 st).1 = .ok e →
      generateEmbedding p t2 ((generateEmbedding p t1 st).2) =
        (.ok e, (generateEmbedding p t1 st).2)) ∧
    (∀ (p : Str → Nat → Except Str Emb) (t1 t2 : Str) (st : EmbState) (e : Emb),
      (∀ s n, p s n = .ok e) → e ≠ [] →
      embedCleanText t1 = embedCleanText t2 →
      ((generateEmbedding p t2 ((generateEmbedding p t1 st).2)).2.calls ≤ st.calls + 1)) := by
  have hsecond : ∀ (p : Str → Nat → Except Str Emb) (t1 t2 : Str) (st : EmbState) (e : Emb),
      embedCleanText t1 = embedCleanText t2 →
      (generateEmbedding p t1 st).1 = .ok e →
      generateEmbedding p t2 ((generateEmbedding p t1 st).2) =
        (.ok e, (generateEmbedding p t1 st).2) := by
    intro p t1 t2 st e hclean hok
    obtain ⟨hc1, hcached⟩ := generateEmbedding_ok_cached hok
    have ht2 : t2 ≠ [] := by
      intro h2
      rw [h2] at hclean
      have hnil : embedCleanText ([] : Str) = [] := rfl
      rw [hnil] at hclean
      rw [hclean] at hc1
      simp at hc1
    have hc2 : (embedCleanText t2).length ≠ 0 := by
      rw [← hclean]
      exact hc1
    have hget2 : jsMapGet ((generateEmbedding p t1 st).2).cache
        (jsHash (embedCleanText t2)) = some e := by
      rw [← hclean]
      exact hcached
    exact generateEmbedding_hit ht2 hc2 hget2
  refine ⟨?_, hsecond, ?_⟩
  · intro p t st hcap
    rcases generateEmbedding_cache_shape p t st with hsame | ⟨k, v, hfresh, hbi⟩
    · rw [hsame]
      exact ⟨hcap, Or.inl rfl⟩
    · constructor
      · rw [hbi]
        exact boundedInsert_length_le embedCacheCap st.cache k v hcap
      · by_cases hfull : st.cache.length = embedCacheCap
        · right; right
          exact ⟨k, v, by rw [hbi, boundedInsert_of_full st.cache k v hfull hfresh
            (by norm_num [embedCacheCap])], hfull⟩
        · right; left
          have hlt : st.cache.length < embedCacheCap := by omega
          exact ⟨k, v, by rw [hbi, boundedInsert_of_fresh_lt st.cache k v hlt hfresh], hlt⟩
  · intro p t1 t2 st e hp hne hclean
    have h1 := generateEmbedding_calls_le hp t1 st
    cases hfirst : (generateEmbedding p t1 st).1 with
    | error err =>
      -- the first call failed: with a provider that always returns a valid
      -- embedding this can only be an input-validation failure, which
      -- leaves the state alone and forces the second call onto the same
      -- validation path (the cleaned texts coincide)
      by_cases ht1 : t1 = []
      · have hst : (generateEmbedding p t1 st).2 = st := by
          simp [generateEmbedding, ht1]
        rw [hst]
        exact generateEmbedding_calls_le hp t2 st
      · by_cases hc1 : (embedCleanText t1).length = 0
        · have hst : (generateEmbedding p t1 st).2 = st := by
            simp [generateEmbedding, ht1, hc1]
          rw [hst]
          exact generateEmbedding_calls_le hp t2 st
        · exfalso
          cases hget : jsMapGet st.cache (jsHash (embedCleanText t1)) with
          | some emb => simp [generateEmbedding, ht1, hc1, hget] at hfirst
          | none =>
            have htry : embedTryLoop p (truncateText hfMaxLength (embedCleanText t1)) st.calls 1 3
                = (.ok e, st.calls + 1) := by
              rw [embedTryLoop, hp]
            simp [generateEmbedding, ht1, hc1, hget, htry, hne] at hfirst
    | ok emb =>
      have h2 := hsecond p t1 t2 st emb hclean hfirst
      rw [h2]
      exact h1

/-- The always-succeeding provider of the C7 witness scenario. -/
def c7p : Str → Nat → Except Str Emb := fun _ _ => .ok [1]

/-- First query text of the C7 witness scenario. -/
def c7t1 : Str := str "hi there"

/-- Second query text of the C7 witness scenario; cleans to the same text
as `c7t1`. -/
def c7t2 : Str := str "hi   there"

/-- The fresh embedding-service state of the C7 witness scenario. -/
def c7st : EmbState := { cache := [], calls := 0 }

/-- C7 witness: two calls on texts with identical cleaned forms — the first
returns the provider embedding, the second answers from the cache with the
state untouched, the two calls together issue exactly one provider call,
and the cache stays within capacity. -/
theorem C7_embedding_cache_witness :
    embedCleanText c7t1 = embedCleanText c7t2 ∧
    (generateEmbedding c7p c7t1 c7st).1 = .ok [1] ∧
    generateEmbedding c7p c7t2 ((generateEmbedding c7p c7t1 c7st).2) =
      (.ok [1], (generateEmbedding c7p c7t1 c7st).2) ∧
    (generateEmbedding c7p c7t2 ((generateEmbedding c7p c7t1 c7st).2)).2.calls ≤ c7st.calls + 1 ∧
    (generateEmbedding c7p c7t1 c7st).2.cache.length ≤ embedCacheCap := by
  have hclean : embedCleanText c7t1 = embedCleanText c7t2 := by rfl
  have hok : (generateEmbedding c7p c7t1 c7st).1 = .ok [1] := by rfl
  have hcap : c7st.cache.length ≤ embedCacheCap := by
    norm_num [c7st, embedCacheCap]
  exact ⟨hclean, hok,
    C7_embedding_cache.2.1 c7p c7t1 c7t2 c7st [1] hclean hok,
    C7_embedding_cache.2.2 c7p c7t1 c7t2 c7st [1] (fun _ _ => rfl) (by simp) hclean,
    (C7_embedding_cache.1 c7p c7t1 c7st hcap).1⟩

/-! Retrieval expiry and filter conjunction (claim C5). -/

theorem mem_insertByDist {g f : StoredFrag} :
    ∀ {l : List StoredFrag}, g ∈ insertByDist f l → g = f ∨ g ∈ l := by
  intro l
  induction l with
  | nil =>
    intro h
    simp [insertByDist] at h
    exact Or.inl h
  | cons x rest ih =>
    intro h
    rw [insertByDist] at h
    split at h
    · rcases List.mem_cons.mp h with h1 | h1
      · exact Or.inl h1
      · exact Or.inr h1
    · rcases List.mem_cons.mp h with h1 | h1
      · exact Or.inr (List.mem_cons.mpr (Or.inl h1))
      · rcases ih h1 with h2 | h2
        · exact Or.inl h2
        · exact Or.inr (List.mem_cons.mpr (Or.inr h2))

theorem mem_sortByDist {g : StoredFrag} :
    ∀ {l : List StoredFrag}, g ∈ sortByDist l → g ∈ l := by
  intro l
  induction l with
  | nil => intro h; simp [sortByDist] at h
  | cons x rest ih =>
    intro h
    rw [sortByDist] at h
    rcases mem_insertByDist h with h1 | h1
    · exact List.mem_cons.mpr (Or.inl h1)
    · exact List.mem_cons.mpr (Or.inr (ih h1))

theorem mem_chromaQuery {g : StoredFrag} {store : List StoredFrag}
    {w : WhereFilter} {n : Nat} (h : g ∈ chromaQuery store w n) :
    g ∈ store ∧ fragMatches g w = true := by
  have h1 : g ∈ sortByDist (store.filter (fragMatches · w)) :=
    List.take_subset _ _ h
  have h2 := mem_sortByDist h1
  exact ⟨(List.mem_filter.mp h2).1, (List.mem_filter.mp h2).2⟩

theorem fragMatches_append {f : StoredFrag} {w1 w2 : WhereFilter} :
    fragMatches f (w1 ++ w2) = (fragMatches f w1 && fragMatches f w2) := by
  simp [fragMatches, List.all_append]

theorem fragMatches_mergeWhere_right {f : StoredFrag} {base extra : WhereFilter}
    (h : fragMatches f (mergeWhere base extra) = true) :
    fragMatches f extra = true := by
  rw [mergeWhere, fragMatches_append] at h
  simp only [Bool.and_eq_true] at h
  exact h.2

theorem fragMatches_mergeWhere_base {f : StoredFrag} {k : String}
    {c : WhereCond} {extra : WhereFilter}
    (hkey : jsMapHasKey extra k = false)
    (h : fragMatches f (mergeWhere [(k, c)] extra) = true) :
    condHolds (metaAt f k) c = true := by
  rw [mergeWhere, fragMatches_append] at h
  simp only [Bool.and_eq_true] at h
  have h1 := h.1
  simp only [List.filter, hkey, Bool.not_false] at h1
  simpa [fragMatches] using h1

/-- Soundness of `searchSimilar` results: every returned entry corresponds
to a stored fragment that is unexpired at query time and satisfies the
caller's filter, provided the filter does not itself use the reserved
`expiresAtMs` key (true of every caller in the repository). -/
theorem searchSimilar_ok_mem (store : List StoredFrag) (nowMs : Int)
    (emb : Emb) (maxResults : Nat) (filter : Option WhereFilter)
    (results : List SearchResult)
    (hkey : jsMapHasKey (filter.getD []) "expiresAtMs" = false)
    (hok : searchSimilar store nowMs emb maxResults filter = .ok results) :
    ∀ r ∈ results, ∃ f ∈ store, f.id = r.id ∧ nowMs < f.meta.expiresAtMs ∧
      fragMatches f (filter.getD []) = true := by
  intro r hr
  by_cases hemb : emb = []
  · simp [searchSimilar, hemb] at hok
  · simp only [searchSimilar, if_neg hemb, Except.ok.injEq] at hok
    rw [← hok] at hr
    obtain ⟨f, hfmem, hfr⟩ := List.mem_map.mp hr
    obtain ⟨hstore, hmatch⟩ := mem_chromaQuery hfmem
    refine ⟨f, hstore, ?_, ?_, fragMatches_mergeWhere_right hmatch⟩
    · rw [← hfr]
    · have hc := fragMatches_mergeWhere_base hkey hmatch
      simp only [metaAt, condHolds, decide_eq_true_eq] at hc
      exact hc

/-- C5: every result of `searchSimilar` (when the caller's filter does not
itself use the reserved `expiresAtMs` key — true of every caller in the
repository, which passes either no filter or a `documentId` equality)
corresponds to a stored fragment that is unexpired at query time
(`expiresAtMs > now`) and satisfies the caller's filter; in particular an
expired fragment is never returned, however small its distance. -/
theorem C5_search_expiry_filter (store : List StoredFrag) (nowMs : Int)
    (emb : Emb) (maxResults : Nat) (filter : Option WhereFilter)
    (results : List SearchResult)
    (hkey : jsMapHasKey (filter.getD []) "expiresAtMs" = false)
    (hok : searchSimilar store nowMs emb maxResults filter = .ok results) :
    ∀ r ∈ results, ∃ f ∈ store, f.id = r.id ∧ nowMs < f.meta.expiresAtMs ∧
      fragMatches f (filter.getD []) = true :=
  searchSimilar_ok_mem store nowMs emb maxResults filter results hkey hok

/-- The expired fragment of the C5 witness: the closest match (distance 0)
but past its expiry. -/
def c5Expired : StoredFrag :=
  { id := str "old", text := str "old text",
    meta := { documentId := str "d1", source := str "a.txt", expiresAtMs := 5 },
    distance := 0 }

/-- The live fragment of the C5 witness: farther (distance 1) but
unexpired. -/
def c5Live : StoredFrag :=
  { id := str "live", text := str "live text",
    meta := { documentId := str "d1", source := str "a.txt", expiresAtMs := 100 },
    distance := 1 }

/-- C5 witness: at time 10, a store holding an expired closest match and a
live farther fragment — the search returns only the live fragment, and the
theorem's conclusion instantiates to it. -/
theorem C5_search_expiry_filter_witness :
    jsMapHasKey (((none : Option WhereFilter)).getD []) "expiresAtMs" = false ∧
    searchSimilar [c5Expired, c5Live] 10 [1] 5 none =
      .ok [{ id := str "live", text := str "live text",
             metadata := c5Live.meta, distance := 1, relevance := 0 }] ∧
    ∀ r ∈ [({ id := str "live", text := str "live text",
              metadata := c5Live.meta, distance := 1, relevance := 0 } : SearchResult)],
      ∃ f ∈ [c5Expired, c5Live], f.id = r.id ∧ (10 : Int) < f.meta.expiresAtMs ∧
        fragMatches f [] = true := by
  have hkey : jsMapHasKey (((none : Option WhereFilter)).getD []) "expiresAtMs" = false := rfl
  have hok : searchSimilar [c5Expired, c5Live] 10 [1] 5 none =
      .ok [{ id := str "live", text := str "live text",
             metadata := c5Live.meta, distance := 1, relevance := 0 }] := by
    show Except.ok _ = _
    norm_num [chromaQuery, c5Expired, c5Live, fragMatches, mergeWhere,
      condHolds, metaAt, sortByDist, insertByDist]
  exact ⟨hkey, hok, C5_search_expiry_filter _ 10 [1] 5 none _ hkey hok⟩

/-! Characterization of the `processQuery` pipeline (claims C1, C2, C10). -/

/-- Mean relevance over the formatted sources of a `QueryResult`, used to
state the confidence formula of C1. -/
def sourceMeanRelevance (ss : List SourceEntry) : ℚ :=
  (ss.map (·.relevance)).sum / ss.length

theorem formatSources_relevance (srs : List SearchResult) (im : Bool) :
    (formatSources srs im).map (·.relevance) = srs.map (·.relevance) := by
  simp [formatSources]

theorem formatSources_length (srs : List SearchResult) (im : Bool) :
    (formatSources srs im).length = srs.length := by
  simp [formatSources]

theorem formatSources_mem {srs : List SearchResult} {im : Bool}
    {s : SourceEntry} (h : s ∈ formatSources srs im) :
    ∃ sr ∈ srs, s.id = sr.id := by
  obtain ⟨sr, hmem, heq⟩ := List.mem_map.mp h
  exact ⟨sr, hmem, by rw [← heq]⟩

theorem formatSources_ne_nil {srs : List SearchResult} (h : srs ≠ [])
    (im : Bool) : formatSources srs im ≠ [] := by
  simp [formatSources, h]

theorem sourceMeanRelevance_formatSources (srs : List SearchResult)
    (im : Bool) : sourceMeanRelevance (formatSources srs im) = averageRelevance srs := by
  rw [sourceMeanRelevance, averageRelevance, formatSources_relevance,
    formatSources_length]

theorem generateResponse_ok {g : Except Str (Str × Nat)}
    {srs : List SearchResult} {ai : AIResponse}
    (h : generateResponse g srs = .ok ai) :
    ai.confidence = min (averageRelevance srs * (4 / 5) + 1 / 5) 1 := by
  cases g with
  | error e => simp [generateResponse] at h
  | ok p =>
    obtain ⟨ans, tok⟩ := p
    by_cases hans : ans = []
    · simp [generateResponse, hans] at h
    · simp only [generateResponse, hans, if_neg, if_false, Except.ok.injEq] at h
      rw [← h]

theorem runAttempt_noInfo {e : AttemptEnv} {q : Str} {mr : Nat} {im : Bool}
    {docId : Option Str} {pt : Int} {a : Nat} {r : QueryResult}
    (h : runAttempt e q mr im docId pt a = .noInfo r) :
    r.sources = [] ∧ r.confidence = 0 ∧ r.answer = noInfoAnswer := by
  rw [runAttempt] at h
  split at h
  · simp at h
  · split at h
    · simp at h
    · split at h
      · simp at h
      · split at h
        · simp at h
        · split at h
          · simp only [AttemptOutcome.noInfo.injEq] at h
            rw [← h]
            exact ⟨rfl, rfl, rfl⟩
          · split at h <;> simp at h

theorem runAttempt_answered {e : AttemptEnv} {q : Str} {mr : Nat} {im : Bool}
    {docId : Option Str} {pt : Int} {a : Nat} {r : QueryResult}
    (h : runAttempt e q mr im docId pt a = .answered r) :
    ∃ emb srs ai, e.embed = .ok emb ∧
      e.search emb mr (whereFilterOf docId) = .ok srs ∧ srs ≠ [] ∧
      generateResponse e.gen srs = .ok ai ∧
      r.sources = formatSources srs im ∧ r.confidence = ai.confidence := by
  rw [runAttempt] at h
  split at h
  · simp at h
  · split at h
    · simp at h
    · next hembed =>
      split at h
      · simp at h
      · next hne =>
        split at h
        · simp at h
        · next srs hsearch =>
          split at h
          · simp at h
          · next hsrs =>
            split at h
            · simp at h
            · next ai hgen =>
              simp only [AttemptOutcome.answered.injEq] at h
              refine ⟨_, srs, ai, ?_, hsearch, hsrs, hgen, ?_, ?_⟩
              · rw [hembed]
              · rw [← h]
              · rw [← h]

/-- Master case analysis of the retry loop: a `processQuery` run either
propagates an error with the state untouched, returns the empty-retrieval
result with the state untouched, or returns a fully-synthesized result and
performs exactly the success-path state update. -/
theorem pqGo_master (env : Nat → AttemptEnv) (histId : Str) (nowMs : Int)
    (q : Str) (mr : Nat) (im : Bool) (docId : Option Str) (pt : Int)
    (st : RAGState) :
    ∀ (fuel attempt : Nat),
      (∃ e, pqGo env histId nowMs q mr im docId pt st attempt fuel = (.error e, st)) ∨
      (∃ r a, runAttempt (env a) q mr im docId pt a = .noInfo r ∧
        pqGo env histId nowMs q mr im docId pt st attempt fuel = (.ok r, st)) ∨
      (∃ r a, runAttempt (env a) q mr im docId pt a = .answered r ∧
        pqGo env histId nowMs q mr im docId pt st attempt fuel =
          (.ok r, recordSuccess st histId nowMs q r pt)) := by
  intro fuel
  induction fuel with
  | zero =>
    intro attempt
    exact Or.inl ⟨[], rfl⟩
  | succ fuel ih =>
    intro attempt
    cases hra : runAttempt (env attempt) q mr im docId pt attempt with
    | answered r =>
      refine Or.inr (Or.inr ⟨r, attempt, hra, ?_⟩)
      rw [pqGo, hra]
    | noInfo r =>
      refine Or.inr (Or.inl ⟨r, attempt, hra, ?_⟩)
      rw [pqGo, hra]
    | failed e =>
      by_cases hretry : (attempt < 3 && isRetryableError e) = true
      · have hstep : pqGo env histId nowMs q mr im docId pt st attempt (fuel + 1) =
            pqGo env histId nowMs q mr im docId pt st (attempt + 1) fuel := by
          simp only [pqGo, hra]
          rw [if_pos hretry]
        rw [hstep]
        exact ih (attempt + 1)
      · refine Or.inl ⟨e, ?_⟩
        simp only [pqGo, hra]
        rw [if_neg hretry]

/-- C10: `processQuery` mutates the query history and the performance
metrics only on its successful synthesis path — when it throws, or when it
returns the empty-retrieval no-information result (recognizable as the only
`ok` result with an empty source list), the service state is exactly the
state before the call, so `totalQueries`/`failedQueries` are never bumped
for a failing query. -/
theorem C10_state_frame (env : Nat → AttemptEnv) (histId : Str) (nowMs : Int)
    (q : Str) (mr : Nat) (im : Bool) (docId : Option Str) (pt : Int)
    (st : RAGState) :
    (∀ e, (processQuery env histId nowMs q mr im docId pt st).1 = .error e →
      (processQuery env histId nowMs q mr im docId pt st).2 = st) ∧
    (∀ r, (processQuery env histId nowMs q mr im docId pt st).1 = .ok r →
      r.sources = [] →
      (processQuery env histId nowMs q mr im docId pt st).2 = st) := by
  rcases pqGo_master env histId nowMs q mr im docId pt st 3 1 with
    ⟨e, heq⟩ | ⟨r, a, hra, heq⟩ | ⟨r, a, hra, heq⟩
  · constructor
    · intro e' _
      rw [processQuery, heq]
    · intro r hr
      rw [processQuery, heq] at hr
      simp at hr
  · constructor
    · intro e' he
      rw [processQuery, heq] at he
      simp at he
    · intro r' _ _
      rw [processQuery, heq]
  · constructor
    · intro e' he
      rw [processQuery, heq] at he
      simp at he
    · intro r' hr hsrc
      rw [processQuery, heq] at hr
      simp only [Except.ok.injEq] at hr
      obtain ⟨_, srs, _, _, _, hsrs, _, hsources, _⟩ := runAttempt_answered hra
      rw [hr] at hsources
      rw [hsources] at hsrc
      exact absurd hsrc (formatSources_ne_nil hsrs im)

/-- C1 (amended): for every result a `processQuery` call returns, the
empty-retrieval result carries confidence exactly 0 and the canned
insufficient-information answer, while a synthesized result (non-empty
sources) carries `confidence = min(meanRelevance × 0.8 + 0.2, 1.0)`, which
is always ≤ 1 and is ≥ 0.2 whenever the retrieved relevances are all
non-negative; with a negative mean relevance (possible, since
`relevance = 1 − distance` is not clamped) the confidence falls below
0.2. -/
theorem C1_confidence_bounds (env : Nat → AttemptEnv) (histId : Str)
    (nowMs : Int) (q : Str) (mr : Nat) (im : Bool) (docId : Option Str)
    (pt : Int) (st : RAGState) (r : QueryResult)
    (hok : (processQuery env histId nowMs q mr im docId pt st).1 = .ok r) :
    (r.sources = [] → r.confidence = 0 ∧ r.answer = noInfoAnswer) ∧
    (r.sources ≠ [] →
      r.confidence = min (sourceMeanRelevance r.sources * (4 / 5) + 1 / 5) 1 ∧
      r.confidence ≤ 1 ∧
      ((∀ s ∈ r.sources, 0 ≤ s.relevance) → 1 / 5 ≤ r.confidence)) := by
  rcases pqGo_master env histId nowMs q mr im docId pt st 3 1 with
    ⟨e, heq⟩ | ⟨r0, a, hra, heq⟩ | ⟨r0, a, hra, heq⟩
  · rw [processQuery, heq] at hok
    simp at hok
  · rw [processQuery, heq] at hok
    simp only [Except.ok.injEq] at hok
    subst hok
    obtain ⟨hsrc, hconf, hans⟩ := runAttempt_noInfo hra
    constructor
    · intro _
      exact ⟨hconf, hans⟩
    · intro hne
      exact absurd hsrc hne
  · rw [processQuery, heq] at hok
    simp only [Except.ok.injEq] at hok
    subst hok
    obtain ⟨emb, srs, ai, _, _, hsrs, hgen, hsources, hconf⟩ :=
      runAttempt_answered hra
    have hform : r0.confidence =
        min (sourceMeanRelevance r0.sources * (4 / 5) + 1 / 5) 1 := by
      rw [hconf, generateResponse_ok hgen, hsources,
        sourceMeanRelevance_formatSources]
    constructor
    · intro hnil
      rw [hsources] at hnil
      exact absurd hnil (formatSources_ne_nil hsrs im)
    · intro _
      refine ⟨hform, ?_, ?_⟩
      · rw [hform]
        exact min_le_right _ _
      · intro hnonneg
        have hmean : 0 ≤ sourceMeanRelevance r0.sources := by
          rw [sourceMeanRelevance]
          apply div_nonneg
          · apply List.sum_nonneg
            intro x hx
            obtain ⟨s, hs, rfl⟩ := List.mem_map.mp hx
            exact hnonneg s hs
          · positivity
        rw [hform]
        apply le_min
        · nlinarith
        · norm_num

/-- C2: when a (non-empty) `documentId` is supplied to `processQuery` —
via the options object, the only form the destructuring on line 61 reads —
and retrieval goes through `vectorService.searchSimilar` over a store,
every source of the returned `QueryResult` corresponds to a stored fragment
whose `documentId` metadata equals the supplied id: retrieval is narrowed
to that document's fragments. -/
theorem C2_scoped_retrieval (env : Nat → AttemptEnv) (histId : Str)
    (nowMs : Int) (q : Str) (mr : Nat) (im : Bool) (pt : Int) (st : RAGState)
    (store : List StoredFrag) (nowQ : Int) (d : Str) (r : QueryResult)
    (henv : ∀ a, (env a).search = fun e n wf => searchSimilar store nowQ e n wf)
    (hd : d ≠ [])
    (hok : (processQuery env histId nowMs q mr im (some d) pt st).1 = .ok r) :
    ∀ s ∈ r.sources, ∃ f ∈ store, f.id = s.id ∧ f.meta.documentId = d := by
  rcases pqGo_master env histId nowMs q mr im (some d) pt st 3 1 with
    ⟨e, heq⟩ | ⟨r0, a, hra, heq⟩ | ⟨r0, a, hra, heq⟩
  · rw [processQuery, heq] at hok
    simp at hok
  · rw [processQuery, heq] at hok
    simp only [Except.ok.injEq] at hok
    subst hok
    obtain ⟨hsrc, _, _⟩ := runAttempt_noInfo hra
    rw [hsrc]
    intro s hs
    simp at hs
  · rw [processQuery, heq] at hok
    simp only [Except.ok.injEq] at hok
    subst hok
    obtain ⟨emb, srs, ai, hembed, hsearch, hsrs, hgen, hsources, _⟩ :=
      runAttempt_answered hra
    rw [henv a] at hsearch
    have hwf : whereFilterOf (some d) =
        some [("documentId", WhereCond.eq (MetaVal.str d))] := by
      simp [whereFilterOf, scopeOf, hd]
    rw [hwf] at hsearch
    have hmem := searchSimilar_ok_mem store nowQ emb mr
      (some [("documentId", WhereCond.eq (MetaVal.str d))]) srs (by rfl) hsearch
    intro s hs
    rw [hsources] at hs
    obtain ⟨sr, hsr, hsid⟩ := formatSources_mem hs
    obtain ⟨f, hf, hfid, _, hfm⟩ := hmem sr hsr
    refine ⟨f, hf, by rw [hfid, hsid], ?_⟩
    simp [fragMatches, condHolds, metaAt] at hfm
    exact hfm

/-- The fresh RAG service state (empty history, fresh metrics). -/
def ragSt0 : RAGState := { queryHistory := [], performanceMetrics := freshMetrics }

/-- The single stored fragment of the C1 counterexample: unexpired but a
poor match (distance 2, hence relevance −1, as the spec allows for cosine
distance). -/
def c1Frag : StoredFrag :=
  { id := str "f1", text := str "t",
    meta := { documentId := str "d1", source := str "s.txt", expiresAtMs := 100 },
    distance := 2 }

/-- The attempt environment of the C1 counterexample: embedding and
synthesis succeed, retrieval runs over the one-fragment store. -/
def c1env : Nat → AttemptEnv := fun _ =>
  { embed := .ok [1],
    search := fun e n wf => searchSimilar [c1Frag] 10 e n wf,
    gen := .ok (str "ans", 3) }

/-- The result the C1 counterexample run produces: one source of relevance
−1 and confidence −0.6. -/
def c1Result : QueryResult :=
  { query := str "q", answer := str "ans",
    sources := [{ id := str "f1", source := str "s.txt", relevance := -1,
                  text := str "t", metadata := none }],
    confidence := -3 / 5, processingTime := 7,
    metadata := some { documentsRetrieved := 1, totalTokensUsed := 3,
                       attempts := 1, scopedDocumentId := none } }

set_option maxHeartbeats 1000000 in
/-- C1 counterexample: a successful `processQuery` call with a non-empty
retrieval set whose confidence is −0.6 < 0.2 — the claimed lower bound 0.2
fails because `relevance = 1 − distance` is not clamped below. -/
theorem C1_confidence_counterexample :
    (processQuery c1env (str "h") 0 (str "q") 5 false none 7 ragSt0).1 = .ok c1Result ∧
    c1Result.sources ≠ [] ∧ ¬ (1 / 5 ≤ c1Result.confidence) := by
  refine ⟨?_, by norm_num [c1Result], by norm_num [c1Result]⟩
  norm_num [processQuery, pqGo, runAttempt, whereFilterOf, scopeOf,
    searchSimilar, chromaQuery, sortByDist, insertByDist, mergeWhere,
    fragMatches, condHolds, metaAt, generateResponse, formatSources,
    averageRelevance, c1env, c1Frag, c1Result, str, noInfoAnswer,
    List.cons_ne_nil]

/-- C1 witness: the amended bounds applied to the concrete counterexample
run — its formula value and upper bound hold (and the ≥ 0.2 part is
vacuous there since a relevance is negative). -/
theorem C1_confidence_bounds_witness :
    (processQuery c1env (str "h") 0 (str "q") 5 false none 7 ragSt0).1 = .ok c1Result ∧
    (c1Result.sources ≠ [] →
      c1Result.confidence = min (sourceMeanRelevance c1Result.sources * (4 / 5) + 1 / 5) 1 ∧
      c1Result.confidence ≤ 1 ∧
      ((∀ s ∈ c1Result.sources, 0 ≤ s.relevance) → 1 / 5 ≤ c1Result.confidence)) := by
  have hok : (processQuery c1env (str "h") 0 (str "q") 5 false none 7 ragSt0).1 = .ok c1Result :=
    C1_confidence_counterexample.1
  exact ⟨hok, (C1_confidence_bounds c1env (str "h") 0 (str "q") 5 false none 7
    ragSt0 c1Result hok).2⟩

/-- A fragment of document `d1` for the C2 witness. -/
def c2FragA : StoredFrag :=
  { id := str "a1", text := str "alpha",
    meta := { documentId := str "d1", source := str "a.txt", expiresAtMs := 100 },
    distance := 1 / 2 }

/-- A closer fragment of the other document `d2` for the C2 witness. -/
def c2FragB : StoredFrag :=
  { id := str "b1", text := str "beta",
    meta := { documentId := str "d2", source := str "b.txt", expiresAtMs := 100 },
    distance := 0 }

/-- The two-document store of the C2 witness. -/
def c2Store : List StoredFrag := [c2FragA, c2FragB]

/-- The attempt environment of the C2 witness, wired to the model
`searchSimilar` over `c2Store`. -/
def c2env : Nat → AttemptEnv := fun _ =>
  { embed := .ok [1],
    search := fun e n wf => searchSimilar c2Store 10 e n wf,
    gen := .ok (str "ans", 2) }

/-- The result of the C2 witness run: only the `d1` fragment is returned,
although the `d2` fragment is closer. -/
def c2Result : QueryResult :=
  { query := str "q", answer := str "ans",
    sources := [{ id := str "a1", source := str "a.txt", relevance := 1 / 2,
                  text := str "alpha", metadata := none }],
    confidence := 3 / 5, processingTime := 7,
    metadata := some { documentsRetrieved := 1, totalTokensUsed := 2,
                       attempts := 1, scopedDocumentId := some (str "d1") } }

set_option maxHeartbeats 1000000 in
/-- C2 witness: scoping to document `d1` returns only `d1` fragments (the
closer `d2` fragment is filtered out), and the theorem's conclusion
instantiates to the concrete run. -/
theorem C2_scoped_retrieval_witness :
    (processQuery c2env (str "h") 0 (str "q") 5 false (some (str "d1")) 7 ragSt0).1
      = .ok c2Result ∧
    ∀ s ∈ c2Result.sources, ∃ f ∈ c2Store, f.id = s.id ∧
      f.meta.documentId = str "d1" := by
  have hok : (processQuery c2env (str "h") 0 (str "q") 5 false (some (str "d1")) 7 ragSt0).1
      = .ok c2Result := by
    norm_num [processQuery, pqGo, runAttempt, whereFilterOf, scopeOf,
      searchSimilar, chromaQuery, sortByDist, insertByDist, mergeWhere,
      fragMatches, condHolds, metaAt, generateResponse, formatSources,
      averageRelevance, c2env, c2Store, c2FragA, c2FragB, c2Result, str,
      List.cons_ne_nil]
  exact ⟨hok, C2_scoped_retrieval c2env (str "h") 0 (str "q") 5 false 7 ragSt0
    c2Store 10 (str "d1") c2Result (fun _ => rfl) (by decide) hok⟩

/-- The attempt environment of the C10 witness: retrieval finds nothing. -/
def c10env : Nat → AttemptEnv := fun _ =>
  { embed := .ok [1], search := fun _ _ _ => .ok [], gen := .ok (str "a", 0) }

/-- The no-information result of the C10 witness run. -/
def c10Result : QueryResult :=
  { query := str "q", answer := noInfoAnswer, sources := [], confidence := 0,
    processingTime := 7, metadata := none }

/-- C10 witness: an empty-retrieval run returns the canned result and
leaves the service state exactly as it was. -/
theorem C10_state_frame_witness :
    (processQuery c10env (str "h") 0 (str "q") 5 false none 7 ragSt0).1 = .ok c10Result ∧
    c10Result.sources = [] ∧
    (processQuery c10env (str "h") 0 (str "q") 5 false none 7 ragSt0).2 = ragSt0 := by
  have hok : (processQuery c10env (str "h") 0 (str "q") 5 false none 7 ragSt0).1 = .ok c10Result := rfl
  exact ⟨hok, rfl,
    (C10_state_frame c10env (str "h") 0 (str "q") 5 false none 7 ragSt0).2
      c10Result hok rfl⟩

/-! Infrastructure for the chunker proofs (claim C3): a predicate over
adjacent elements of a list, and slice/trim preservation lemmas. -/

/-- The given relation holds between every two adjacent elements. -/
def chainOk {α : Type _} (P : α → α → Prop) : List α → Prop
  | a :: b :: rest => P a b ∧ chainOk P (b :: rest)
  | _ => True

theorem chainOk_nil {α : Type _} (P : α → α → Prop) : chainOk P [] := trivial

theorem chainOk_single {α : Type _} (P : α → α → Prop) (a : α) :
    chainOk P [a] := trivial

theorem chainOk_cons {α : Type _} {P : α → α → Prop} {x : α} {l : List α} :
    chainOk P (x :: l) ↔ (∀ y, l.head? = some y → P x y) ∧ chainOk P l := by
  cases l with
  | nil => simp [chainOk]
  | cons b rest =>
    constructor
    · intro h
      exact ⟨fun y hy => by
        simp only [List.head?_cons, Option.some.injEq] at hy
        rw [← hy]; exact h.1, h.2⟩
    · intro ⟨hj, hc⟩
      exact ⟨hj b rfl, hc⟩

theorem chainOk_of_cons {α : Type _} {P : α → α → Prop} {x : α} {l : List α}
    (h : chainOk P (x :: l)) : chainOk P l :=
  (chainOk_cons.mp h).2

theorem chainOk_take {α : Type _} {P : α → α → Prop} :
    ∀ {l : List α} (n : Nat), chainOk P l → chainOk P (l.take n) := by
  intro l
  induction l with
  | nil => intro n _; simp [chainOk_nil]
  | cons a rest ih =>
    intro n h
    cases n with
    | zero => exact chainOk_nil P
    | succ n =>
      rw [List.take_succ_cons, chainOk_cons]
      rw [chainOk_cons] at h
      refine ⟨?_, ih n h.2⟩
      intro y hy
      rw [List.head?_take] at hy
      split at hy
      · simp at hy
      · exact h.1 y hy

theorem chainOk_drop {α : Type _} {P : α → α → Prop} :
    ∀ {l : List α} (n : Nat), chainOk P l → chainOk P (l.drop n) := by
  intro l
  induction l with
  | nil => intro n _; simp [chainOk_nil]
  | cons a rest ih =>
    intro n h
    cases n with
    | zero => exact h
    | succ n => exact ih n (chainOk_of_cons h)

theorem chainOk_append_of {α : Type _} {P : α → α → Prop} :
    ∀ {A : List α} {B : List α}, chainOk P A → chainOk P B →
      (∀ a b, A.getLast? = some a → B.head? = some b → P a b) →
      chainOk P (A ++ B) := by
  intro A
  induction A with
  | nil => intro B _ hB _; exact hB
  | cons a A' ih =>
    intro B hA hB hj
    cases A' with
    | nil =>
      rw [List.singleton_append, chainOk_cons]
      exact ⟨fun y hy => hj a y rfl hy, hB⟩
    | cons a2 A'' =>
      rw [List.cons_append, chainOk_cons]
      refine ⟨?_, ih (chainOk_of_cons hA) hB ?_⟩
      · intro y hy
        simp only [List.cons_append, List.head?_cons, Option.some.injEq] at hy
        rw [← hy]
        exact hA.1
      · intro x b hx hb
        apply hj x b ?_ hb
        rw [List.getLast?_cons, hx]
        simp

theorem chainOk_append_singleton {α : Type _} {P : α → α → Prop}
    {A : List α} {x : α} (hA : chainOk P A)
    (hj : ∀ a, A.getLast? = some a → P a x) :
    chainOk P (A ++ [x]) := by
  apply chainOk_append_of hA (chainOk_single P x)
  intro a b ha hb
  simp only [List.head?_cons, Option.some.injEq] at hb
  rw [← hb]
  exact hj a ha

/-- Left part of a chain over an append. -/
theorem chainOk_append_left {α : Type _} {P : α → α → Prop} {A B : List α}
    (h : chainOk P (A ++ B)) : chainOk P A := by
  have := chainOk_take (P := P) (l := A ++ B) A.length h
  rwa [List.take_left] at this

/-- Right part of a chain over an append. -/
theorem chainOk_append_right {α : Type _} {P : α → α → Prop} {A B : List α}
    (h : chainOk P (A ++ B)) : chainOk P B := by
  have := chainOk_drop (P := P) (l := A ++ B) A.length h
  rwa [List.drop_left] at this

/-- Left trim is a drop. -/
theorem trimL_eq_drop (s : Str) : ∃ n, trimL s = s.drop n := by
  rw [trimL]
  induction s with
  | nil => exact ⟨0, rfl⟩
  | cons a rest ih =>
    by_cases ha : isWs a
    · obtain ⟨n, hn⟩ := ih
      exact ⟨n + 1, by simp [List.dropWhile_cons, ha, hn]⟩
    · exact ⟨0, by simp [List.dropWhile_cons, ha]⟩

/-- Right trim is a take. -/
theorem trimR_eq_take (s : Str) : ∃ n, trimR s = s.take n := by
  rw [trimR]
  obtain ⟨m, hm⟩ := trimL_eq_drop s.reverse
  rw [trimL] at hm
  rw [hm, List.reverse_drop, List.reverse_reverse]
  exact ⟨s.reverse.length - m, rfl⟩

/-- Trimming yields a contiguous slice of the original string. -/
theorem trim_eq_slice (s : Str) : ∃ m n, trim s = (s.drop m).take n := by
  obtain ⟨m, hm⟩ := trimL_eq_drop s
  obtain ⟨n, hn⟩ := trimR_eq_take (trimL s)
  exact ⟨m, n, by rw [trim, hn, hm]⟩

/-- Every whitespace character of the string is a plain space (true of
cleaned text, whose whitespace runs have been collapsed). -/
def spaceOnly (l : Str) : Prop := ∀ c ∈ l, isWs c = true → c = ' '

/-- No two adjacent characters are both spaces. -/
def noTwoSpaces (l : Str) : Prop := chainOk (fun a b => a = ' ' → b ≠ ' ') l

theorem spaceOnly_subset {l l' : Str} (h : spaceOnly l) (hsub : l' ⊆ l) :
    spaceOnly l' := fun c hc => h c (hsub hc)

theorem trim_eq_nil_iff {s : Str} : trim s = [] ↔ ∀ c ∈ s, isWs c = true := by
  constructor
  · intro h c hc
    rw [trim, trimR] at h
    have h1 : (trimL s).reverse.dropWhile isWs = [] := by
      have := congrArg List.reverse h
      rwa [List.reverse_reverse, List.reverse_nil] at this
    have h2 : ∀ c ∈ (trimL s).reverse, isWs c = true :=
      List.dropWhile_eq_nil_iff.mp h1
    have h3 : ∀ c ∈ trimL s, isWs c = true := by
      intro c hc
      exact h2 c (List.mem_reverse.mpr hc)
    have hsplit : s.takeWhile isWs ++ s.dropWhile isWs = s :=
      List.takeWhile_append_dropWhile isWs s
    rw [← hsplit] at hc
    rcases List.mem_append.mp hc with hmem | hmem
    · exact List.mem_takeWhile_imp hmem
    · exact h3 c hmem
  · intro h
    rw [trim, trimR]
    have h1 : trimL s = [] ∨ ∀ c ∈ trimL s, isWs c = true := by
      right
      intro c hc
      exact h c (List.dropWhile_subset isWs hc)
    have h2 : ∀ c ∈ (trimL s).reverse, isWs c = true := by
      intro c hc
      rcases h1 with h1 | h1
      · rw [h1] at hc; simp at hc
      · exact h1 c (List.mem_reverse.mp hc)
    rw [List.dropWhile_eq_nil_iff.mpr h2, List.reverse_nil]

theorem trim_ne_nil {l : Str} (hs : spaceOnly l) (hn : noTwoSpaces l)
    (hlen : 2 ≤ l.length) : trim l ≠ [] := by
  intro hnil
  have hall := trim_eq_nil_iff.mp hnil
  match l, hlen with
  | a :: b :: rest, _ =>
    have ha : a = ' ' := hs a (by simp) (hall a (by simp))
    have hb : b = ' ' := hs b (by simp) (hall b (by simp))
    exact (hn.1 ha) hb

theorem head?_dropWhile_not {p : Char → Bool} :
    ∀ {l : Str} {c : Char}, (l.dropWhile p).head? = some c → p c = false := by
  intro l
  induction l with
  | nil => intro c h; simp at h
  | cons a rest ih =>
    intro c h
    by_cases ha : p a
    · rw [List.dropWhile_cons_of_pos ha] at h
      exact ih h
    · rw [List.dropWhile_cons_of_neg ha] at h
      simp only [List.head?_cons, Option.some.injEq] at h
      rw [← h]
      exact Bool.of_not_eq_true ha

theorem trim_getLast?_not_ws {s : Str} (h : trim s ≠ []) :
    ∃ c, (trim s).getLast? = some c ∧ isWs c = false := by
  rw [trim, trimR] at h ⊢
  set y := (trimL s).reverse.dropWhile isWs with hy
  have hyne : y ≠ [] := by
    intro hnil
    rw [hnil] at h
    simp at h
  cases hc : y.head? with
  | none =>
    cases hcase : y with
    | nil => exact absurd hcase hyne
    | cons a t => rw [hcase] at hc; simp at hc
  | some c =>
    have hdw : ((trimL s).reverse.dropWhile isWs).head? = some c := by
      rw [← hy]
      exact hc
    refine ⟨c, ?_, head?_dropWhile_not hdw⟩
    rw [List.getLast?_reverse, hc]

theorem createOverlap_length_le (ovl : Nat) (c : Str) :
    (createOverlap ovl c).length ≤ ovl := by
  simp only [createOverlap, List.length_drop]
  omega

theorem createOverlap_ne_nil {ovl : Nat} {c : Str} (hovl : 1 ≤ ovl)
    (hc : c ≠ []) : createOverlap ovl c ≠ [] := by
  rw [createOverlap]
  intro hnil
  have hlen := congrArg List.length hnil
  simp only [List.length_drop, List.length_nil] at hlen
  have : 1 ≤ c.length := by
    cases c with
    | nil => exact absurd rfl hc
    | cons x xs => simp
  omega

theorem getLast?_drop_of_ne_nil {l : Str} {n : Nat} (h : l.drop n ≠ []) :
    (l.drop n).getLast? = l.getLast? := by
  have h1 : (l.drop n).getLast? = (l.drop n).reverse.head? := by
    rw [List.head?_reverse]
  have h2 : (l.drop n).reverse = l.reverse.take (l.length - n) :=
    List.reverse_drop
  have hn : l.length - n ≠ 0 := by
    intro h0
    apply h
    have : l.length ≤ n := by omega
    simp [List.drop_eq_nil_of_le this]
  rw [h1, h2, List.head?_take, if_neg hn, List.head?_reverse]

theorem createOverlap_getLast? {ovl : Nat} {c : Str} (hovl : 1 ≤ ovl)
    (hc : c ≠ []) : (createOverlap ovl c).getLast? = c.getLast? :=
  getLast?_drop_of_ne_nil (createOverlap_ne_nil hovl hc)

/-- Shape of `findBestSplitPoint`: either the hard split (the trimmed whole
candidate) or the trimmed cut after a separator occurrence, whose cut index
is at least 2 and leaves more than `overlapSize − 1` trailing characters. -/
theorem fbsp_shape (ovl : Nat) (chunk : Str) :
    ∀ seps : List Str, (∀ s ∈ seps, 1 ≤ s.length ∧ s.length ≤ 2) →
      findBestSplitPoint ovl chunk seps = trim chunk ∨
      ∃ k, findBestSplitPoint ovl chunk seps = trim (chunk.take k) ∧ 2 ≤ k ∧
        (k : Int) ≤ (chunk.length : Int) - (ovl : Int) + 1 := by
  intro seps
  induction seps with
  | nil => intro _; left; rfl
  | cons sep rest ih =>
    intro hlens
    rw [findBestSplitPoint]
    split
    · next hcond =>
      obtain ⟨hpos, hlt⟩ := hcond
      right
      refine ⟨(lastIndexOfSub chunk sep).toNat + sep.length, rfl, ?_, ?_⟩
      · have h1 : 1 ≤ (lastIndexOfSub chunk sep).toNat := by
          omega
        have h2 := (hlens sep (by simp)).1
        omega
      · have hto : ((lastIndexOfSub chunk sep).toNat : Int) =
            lastIndexOfSub chunk sep := Int.toNat_of_nonneg (by omega)
        have h2 := (hlens sep (by simp)).2
        push_cast
        rw [hto]
        omega
    · exact ih fun s hs => hlens s (by simp [hs])

/-- The amended inter-chunk link: the next chunk is the whitespace-trim of
a buffer slice that either is an initial portion of the trailing
`overlapSize` characters of the previous chunk, or extends them — the
sliding-window overlap up to trimming and in-overlap split points. -/
def overlapLinked (ovl : Nat) (c c' : Str) : Prop :=
  ∃ t, c' = trim t ∧
    ((∃ d, createOverlap ovl c = t ++ d) ∨ (∃ d, t = createOverlap ovl c ++ d))

theorem take_append_cases (k : Nat) (A B : Str) :
    (∃ d, A = (A ++ B).take k ++ d) ∨ (∃ d, (A ++ B).take k = A ++ d) := by
  by_cases hk : k ≤ A.length
  · left
    rw [List.take_append_eq_append_take, Nat.sub_eq_zero_of_le hk,
      List.take_zero, List.append_nil]
    exact ⟨A.drop k, (List.take_append_drop k A).symm⟩
  · right
    rw [List.take_append_eq_append_take, List.take_of_length_le (by omega)]
    exact ⟨B.take (k - A.length), rfl⟩

theorem spaceOnly_append_of {A B : Str} (hA : spaceOnly A) (hB : spaceOnly B) :
    spaceOnly (A ++ B) := by
  intro c hc hw
  rcases List.mem_append.mp hc with h | h
  · exact hA c h hw
  · exact hB c h hw

theorem trim_subset (s : Str) : trim s ⊆ s := by
  obtain ⟨m, n, heq⟩ := trim_eq_slice s
  rw [heq]
  exact List.Subset.trans (List.take_subset _ _) (List.drop_subset _ _)

theorem chainOk_trim {P : Char → Char → Prop} {s : Str}
    (h : chainOk P s) : chainOk P (trim s) := by
  obtain ⟨m, n, heq⟩ := trim_eq_slice s
  rw [heq]
  exact chainOk_take n (chainOk_drop m h)

/-- Default separator lengths are between 1 and 2. -/
theorem defaultSeparators_lengths :
    ∀ s ∈ defaultSeparators, 1 ≤ s.length ∧ s.length ≤ 2 := by decide

/-- Invariant of the chunking loop tying the candidate buffer to the most
recently emitted chunk: the buffer starts with that chunk's overlap. -/
def linkInv (ovl : Nat) (acc : List Str) (cur : Str) : Prop :=
  ∀ lc, acc.getLast? = some lc → ∃ d, cur = createOverlap ovl lc ++ d

/-- Main loop invariant proof for `createChunksGo`: every emitted chunk is
bounded by `maxChunkSize` and consecutive chunks satisfy the (amended)
overlap link. -/
theorem createChunksGo_spec (max ovl : Nat) (hovl : 2 ≤ ovl)
    (hlt : ovl < max) :
    ∀ (rest cur : Str) (acc : List Str),
      spaceOnly (cur ++ rest) → noTwoSpaces (cur ++ rest) →
      cur.length < max →
      (∀ c ∈ acc, c.length ≤ max) →
      chainOk (overlapLinked ovl) acc →
      linkInv ovl acc cur →
      (∀ c ∈ createChunksGo max ovl defaultSeparators rest cur acc,
        c.length ≤ max) ∧
      chainOk (overlapLinked ovl)
        (createChunksGo max ovl defaultSeparators rest cur acc) := by
  intro rest
  induction rest with
  | nil =>
    intro cur acc hso hnd hcur hlens hchain hlink
    rw [createChunksGo]
    split
    · next hne =>
      constructor
      · intro c hc
        rcases List.mem_append.mp hc with h | h
        · exact hlens c h
        · simp only [List.mem_singleton] at h
          rw [h]
          exact le_trans (trim_length_le cur) (by omega)
      · apply chainOk_append_singleton hchain
        intro lc hlc
        obtain ⟨d, hd⟩ := hlink lc hlc
        exact ⟨cur, rfl, Or.inr ⟨d, hd⟩⟩
    · next => exact ⟨hlens, hchain⟩
  | cons ch rest' ih =>
    intro cur acc hso hnd hcur hlens hchain hlink
    rw [createChunksGo]
    have hassoc : cur ++ ch :: rest' = (cur ++ [ch]) ++ rest' := by simp
    rw [hassoc] at hso hnd
    split
    · next hmax =>
      -- the candidate reached maxChunkSize: cur.length + 1 = max exactly
      have hlen1 : (cur ++ [ch]).length = max := by
        simp only [List.length_append, List.length_cons, List.length_nil] at hmax ⊢
        omega
      have hmax3 : 3 ≤ max := by omega
      -- the emitted chunk is the trim of an initial slice of the candidate
      have hsplit : ∃ k, 2 ≤ k ∧
          findBestSplitPoint ovl (cur ++ [ch]) defaultSeparators =
            trim ((cur ++ [ch]).take k) ∧
          (findBestSplitPoint ovl (cur ++ [ch]) defaultSeparators).length ≤ max := by
        rcases fbsp_shape ovl (cur ++ [ch]) defaultSeparators
            defaultSeparators_lengths with hhard | ⟨k, heq, hk2, hkle⟩
        · refine ⟨(cur ++ [ch]).length, by omega, ?_, ?_⟩
          · rw [List.take_length, hhard]
          · rw [hhard]
            exact le_trans (trim_length_le _) (by omega)
        · refine ⟨k, hk2, heq, ?_⟩
          rw [heq]
          apply le_trans (trim_length_le _)
          have hkm : k ≤ max - 1 := by
            rw [hlen1] at hkle
            omega
          calc ((cur ++ [ch]).take k).length ≤ k := by
                rw [List.length_take]
                omega
            _ ≤ max := by omega
      obtain ⟨k, hk2, hkeq, hklen⟩ := hsplit
      have hso1 : spaceOnly (cur ++ [ch]) :=
        spaceOnly_subset hso (List.subset_append_left _ _)
      have hnd1 : chainOk (fun a b => a = ' ' → b ≠ ' ') (cur ++ [ch]) :=
        chainOk_append_left hnd
      have hslen : 2 ≤ ((cur ++ [ch]).take k).length := by
        rw [List.length_take]
        omega
      have hsso : spaceOnly ((cur ++ [ch]).take k) :=
        spaceOnly_subset hso1 (List.take_subset _ _)
      have hsnd : chainOk (fun a b => a = ' ' → b ≠ ' ') ((cur ++ [ch]).take k) :=
        chainOk_take k hnd1
      have hchunkne : findBestSplitPoint ovl (cur ++ [ch]) defaultSeparators ≠ [] := by
        rw [hkeq]
        exact trim_ne_nil hsso hsnd hslen
      rw [if_pos hchunkne]
      -- invariants for the recursive call
      set chunk := findBestSplitPoint ovl (cur ++ [ch]) defaultSeparators with hchunk
      have hchainchunk : chainOk (fun a b => a = ' ' → b ≠ ' ') chunk := by
        rw [hkeq]
        exact chainOk_trim hsnd
      have hsochunk : spaceOnly chunk := by
        rw [hkeq]
        exact spaceOnly_subset hsso (trim_subset _)
      have hoverchain : chainOk (fun a b => a = ' ' → b ≠ ' ')
          (createOverlap ovl chunk) :=
        chainOk_drop _ hchainchunk
      have hoverso : spaceOnly (createOverlap ovl chunk) :=
        spaceOnly_subset hsochunk (List.drop_subset _ _)
      have hlastc : ∃ c, (createOverlap ovl chunk).getLast? = some c ∧
          isWs c = false := by
        obtain ⟨c, hc, hcw⟩ := trim_getLast?_not_ws (s := (cur ++ [ch]).take k)
          (by rw [← hkeq]; exact hchunkne)
        refine ⟨c, ?_, hcw⟩
        rw [createOverlap_getLast? (by omega) hchunkne, hkeq, hc]
      apply ih
      · exact spaceOnly_append_of hoverso
          (spaceOnly_subset hso (List.subset_append_right _ _))
      · apply chainOk_append_of hoverchain (chainOk_append_right hnd)
        intro a b ha hb
        obtain ⟨c, hc, hcw⟩ := hlastc
        rw [hc] at ha
        simp only [Option.some.injEq] at ha
        intro hsp
        rw [ha, hsp] at hcw
        simp [isWs] at hcw
      · exact lt_of_le_of_lt (createOverlap_length_le ovl chunk) hlt
      · intro c hc
        rcases List.mem_append.mp hc with h | h
        · exact hlens c h
        · simp only [List.mem_singleton] at h
          rw [h]
          exact hklen
      · apply chainOk_append_singleton hchain
        intro lc hlc
        obtain ⟨d0, hd0⟩ := hlink lc hlc
        refine ⟨(cur ++ [ch]).take k, hkeq, ?_⟩
        have hcur1 : cur ++ [ch] = createOverlap ovl lc ++ (d0 ++ [ch]) := by
          rw [hd0, List.append_assoc]
        rw [hcur1]
        exact take_append_cases k (createOverlap ovl lc) (d0 ++ [ch])
      · intro lc hlc
        rw [List.getLast?_concat] at hlc
        simp only [Option.some.injEq] at hlc
        rw [← hlc]
        exact ⟨[], by rw [List.append_nil]⟩
    · next hmax =>
      apply ih
      · exact hso
      · exact hnd
      · simp only [List.length_append, List.length_cons, List.length_nil]
        simp only [List.length_append, List.length_cons, List.length_nil] at hmax
        omega
      · exact hlens
      · exact hchain
      · intro lc hlc
        obtain ⟨d, hd⟩ := hlink lc hlc
        exact ⟨d ++ [ch], by rw [hd, List.append_assoc]⟩

theorem spaceOnly_collapseWs : ∀ t : Str, spaceOnly (collapseWs t)
  | [] => by
    intro c hc _
    simp [collapseWs] at hc
  | [a] => by
    intro c hc hw
    rw [collapseWs] at hc
    split at hc
    · simp only [List.mem_singleton] at hc
      exact hc
    · next ha =>
      simp only [List.mem_singleton] at hc
      rw [hc] at hw
      exact absurd hw (by simpa using ha)
  | a :: b :: rest => by
    intro c hc hw
    rw [collapseWs] at hc
    split at hc
    · exact spaceOnly_collapseWs (b :: rest) c hc hw
    · rcases List.mem_cons.mp hc with h | h
      · by_cases ha : isWs a
        · rw [h, if_pos ha]
        · rw [if_neg ha] at h
          rw [h] at hw
          exact absurd hw (by simpa using ha)
      · exact spaceOnly_collapseWs (b :: rest) c h hw

theorem collapseWs_head? : ∀ (b : Char) (rest : Str),
    (collapseWs (b :: rest)).head? = some (if isWs b = true then ' ' else b)
  | b, [] => by
    by_cases hb : isWs b <;> simp [collapseWs, hb]
  | b, c :: r => by
    rw [collapseWs]
    split
    · next hrun =>
      rw [collapseWs_head? c r]
      simp only [Bool.and_eq_true] at hrun
      rw [if_pos hrun.1, if_pos hrun.2]
    · simp

theorem noTwoSpaces_collapseWs : ∀ t : Str, noTwoSpaces (collapseWs t)
  | [] => trivial
  | [a] => by
    rw [collapseWs]
    split <;> exact chainOk_single _ _
  | a :: b :: rest => by
    rw [collapseWs]
    split
    · exact noTwoSpaces_collapseWs (b :: rest)
    · next hrun =>
      rw [noTwoSpaces, chainOk_cons]
      refine ⟨?_, noTwoSpaces_collapseWs (b :: rest)⟩
      intro y hy hx
      rw [collapseWs_head? b rest] at hy
      simp only [Option.some.injEq] at hy
      have hwa : isWs a = true := by
        by_cases ha : isWs a
        · exact ha
        · rw [if_neg ha] at hx
          rw [hx] at ha
          exact absurd (by decide : isWs ' ' = true) ha
      have hwb : isWs b = false := by
        by_cases hb : isWs b
        · rw [hwa, hb] at hrun
          simp at hrun
        · simpa using hb
      rw [hwb] at hy
      simp only [Bool.false_eq_true, if_false] at hy
      rw [← hy]
      intro hbsp
      rw [hbsp] at hwb
      simp [isWs] at hwb

theorem spaceOnly_chunkerCleanText (t : Str) :
    spaceOnly (chunkerCleanText t) :=
  spaceOnly_subset (spaceOnly_collapseWs t) (trim_subset _)

theorem noTwoSpaces_chunkerCleanText (t : Str) :
    noTwoSpaces (chunkerCleanText t) :=
  chainOk_trim (noTwoSpaces_collapseWs t)

/-- C3 (amended): for any chunker instance with `2 ≤ overlapSize <
maxChunkSize` and any text whose cleaned length exceeds `maxChunkSize`,
every chunk `splitText` returns has length ≤ `maxChunkSize` (no overflow
even on the hard-split fallback), and each chunk after the first is the
whitespace-trim of a buffer that begins with — or is an initial portion
of — the trailing `overlapSize` characters of the previous chunk, so
consecutive chunks share an overlap of up to `overlapSize` characters
(less any trimmed whitespace, and possibly shorter when the chosen split
point falls inside the overlap region). -/
theorem C3_chunk_bounds_overlap (maxChunkSize overlapSize : Nat) (text : Str)
    (hovl : 2 ≤ overlapSize) (hlt : overlapSize < maxChunkSize)
    (hlong : maxChunkSize < (chunkerCleanText text).length) :
    (∀ c ∈ splitText maxChunkSize overlapSize defaultSeparators text,
      c.length ≤ maxChunkSize) ∧
    chainOk (overlapLinked overlapSize)
      (splitText maxChunkSize overlapSize defaultSeparators text) := by
  rw [splitText, if_neg (by omega), createChunks]
  apply createChunksGo_spec maxChunkSize overlapSize hovl hlt
  · rw [List.nil_append]
    exact spaceOnly_chunkerCleanText text
  · rw [List.nil_append]
    exact noTwoSpaces_chunkerCleanText text
  · simp only [List.length_nil]
    omega
  · intro c hc
    simp at hc
  · exact chainOk_nil _
  · intro lc hlc
    simp at hlc

/-- C3 counterexample (chunker instance `maxChunkSize 10, overlapSize 3`,
as the class options permit — the repository's own test file constructs
such instances): the third chunk does not begin with the trailing 3
characters of the second chunk, because `findBestSplitPoint` trims the
leading space away. -/
theorem C3_chunk_overlap_counterexample :
    10 < (chunkerCleanText (str "aaaa bbbb cccc dddd eeee ffff")).length ∧
    splitText 10 3 defaultSeparators (str "aaaa bbbb cccc dddd eeee ffff") =
      [str "aaaa bbbb", str "bbbcccc dd", str "dddd", str "ddd ffff"] ∧
    createOverlap 3 (str "bbbcccc dd") = str " dd" ∧
    leadsWith (createOverlap 3 (str "bbbcccc dd")) (str "dddd") = false := by
  refine ⟨by decide, by decide, by decide, by decide⟩

/-- C3 witness for the amended statement, at the instance and text of the
counterexample. -/
theorem C3_chunk_bounds_overlap_witness :
    (2 ≤ 3 ∧ 3 < 10 ∧
      10 < (chunkerCleanText (str "aaaa bbbb cccc dddd eeee ffff")).length) ∧
    ((∀ c ∈ splitText 10 3 defaultSeparators (str "aaaa bbbb cccc dddd eeee ffff"),
        c.length ≤ 10) ∧
      chainOk (overlapLinked 3)
        (splitText 10 3 defaultSeparators (str "aaaa bbbb cccc dddd eeee ffff"))) :=
  ⟨⟨by norm_num, by norm_num, by decide⟩,
    C3_chunk_bounds_overlap 10 3 (str "aaaa bbbb cccc dddd eeee ffff")
      (by norm_num) (by norm_num) (by decide)⟩

end DKE
